import Mathlib

/-!
# Verification of the gentle-mcp multi-format documentation extraction pipeline

This file gives a shallow embedding of the three format-specific recognizers
(stub-file, markdown, command-list) of the gentle-mcp repository and proves
properties of the embedded code.  Strings are modelled as lists of characters
(the `Str` abbreviation); every JavaScript string operation used by the code
(trim, split, startsWith, includes, join, replaceAll, toLowerCase, slice) is
given an explicit executable model, and every regular expression used by the
code is hand-compiled into a deterministic matcher whose behaviour (including
the relevant backtracking cases) agrees with the JavaScript engine on the
pattern in question.
-/

set_option maxHeartbeats 1000000

namespace GentleMcp

/-- Strings are modelled as lists of characters. -/
abbrev Str := List Char

/-- Coerce a Lean string literal to the list-of-characters model. -/
def str (s : String) : Str := s.data

/-- JavaScript whitespace class `\s` (the characters that can occur in the
inputs at hand: space, tab, newline, carriage return, vertical tab, form feed). -/
def jsWs (c : Char) : Bool :=
  c == ' ' || c == '\t' || c == '\n' || c == '\r' ||
  c == Char.ofNat 11 || c == Char.ofNat 12

/-- JavaScript word-character class `\w`, i.e. `[A-Za-z0-9_]`. -/
def wordChar (c : Char) : Bool :=
  ('a' ≤ c && c ≤ 'z') || ('A' ≤ c && c ≤ 'Z') || ('0' ≤ c && c ≤ '9') || c == '_'

/-- Lower-case letter or underscore, the class `[a-z_]`. -/
def lowerUnder (c : Char) : Bool := ('a' ≤ c && c ≤ 'z') || c == '_'

/-- The class `[a-z0-9_]`. -/
def lowerWordChar (c : Char) : Bool :=
  ('a' ≤ c && c ≤ 'z') || ('0' ≤ c && c ≤ '9') || c == '_'

/-- Upper-case letter or underscore, the class `[A-Z_]`. -/
def upperUnder (c : Char) : Bool := ('A' ≤ c && c ≤ 'Z') || c == '_'

/-- The class `[A-Z0-9_]`. -/
def upperWordChar (c : Char) : Bool :=
  ('A' ≤ c && c ≤ 'Z') || ('0' ≤ c && c ≤ '9') || c == '_'

/-- ASCII digit test, the class `\d`. -/
def digitChar (c : Char) : Bool := '0' ≤ c && c ≤ '9'

/-- The class `[a-z0-9]` used by the markdown identifier sanitizer. -/
def alnumLower (c : Char) : Bool := ('a' ≤ c && c ≤ 'z') || ('0' ≤ c && c ≤ '9')

/-- Model of JavaScript `String.prototype.trim`: drop whitespace from both ends. -/
def jsTrim (s : Str) : Str :=
  ((s.dropWhile jsWs).reverse.dropWhile jsWs).reverse

/-- Boolean test that one list starts with another (model of `startsWith` and
the anchored part of regular-expression matching). -/
def pfx : Str → Str → Bool
  | [], _ => true
  | _ :: _, [] => false
  | a :: as, b :: bs => a == b && pfx as bs

/-- Model of JavaScript `String.prototype.includes`: substring occurrence. -/
def containsSub (s pat : Str) : Bool :=
  match s with
  | [] => pfx pat []
  | _ :: t => pfx pat s || containsSub t pat

/-- Model of `Array.prototype.join('\n')` on an array of strings. -/
def joinNL : List Str → Str
  | [] => []
  | [s] => s
  | s :: rest => s ++ '\n' :: joinNL rest

/-- Model of `String.prototype.split('\n')`. -/
def splitNL : Str → List Str
  | [] => [[]]
  | c :: rest =>
    if c == '\n' then [] :: splitNL rest
    else
      match splitNL rest with
      | s :: ss => (c :: s) :: ss
      | [] => [[c]]

/-- Model of `String.prototype.toLowerCase` (ASCII). -/
def toLowerStr (s : Str) : Str := s.map Char.toLower

/-- Decimal representation of a natural number, as produced by JavaScript
`String(n)` and by Lean's `Nat.repr`. -/
def natStr (n : Nat) : Str := (Nat.repr n).data

/-- The chunk `source` tags: the fixed closed enumeration of document collections. -/
inductive DocSource
  | unrealPython
  | unrealConsole
  | pyqtReference
  | pyqtTutorials
deriving DecidableEq, Repr

/-- The string form of a `source` tag, as it appears in chunk ids. -/
def sourceStr : DocSource → Str
  | .unrealPython => str "unreal-python"
  | .unrealConsole => str "unreal-console"
  | .pyqtReference => str "pyqt-reference"
  | .pyqtTutorials => str "pyqt-tutorials"

/-- The chunk `type` tags: the fixed closed enumeration of chunk kinds
(`DOC_TYPES` in the repository). -/
inductive DocType
  | classT
  | method
  | property
  | enumT
  | function
  | consoleVariable
  | consoleCommand
  | apiEndpoint
  | guide
  | concept
  | example
deriving DecidableEq, Repr

/-- The string form of a `type` tag, as it appears in chunk ids. -/
def docTypeStr : DocType → Str
  | .classT => str "class"
  | .method => str "method"
  | .property => str "property"
  | .enumT => str "enum"
  | .function => str "function"
  | .consoleVariable => str "console-variable"
  | .consoleCommand => str "console-command"
  | .apiEndpoint => str "api-endpoint"
  | .guide => str "guide"
  | .concept => str "concept"
  | .example => str "example"

/-- The `DocChunk` record: the unit of retrieval shared by all recognizers. -/
structure DocChunk where
  id : Str
  source : DocSource
  type : DocType
  name : Str
  parentName : Option Str := none
  content : Str
  signature : Option Str := none
  version : Option Str := none
deriving DecidableEq, Repr

/-- A recognizer's result: origin tag, optional version, ordered chunk sequence. -/
structure ParserResult where
  source : DocSource
  version : Option Str
  chunks : List DocChunk
deriving DecidableEq, Repr

/-! ## Markdown recognizer (`scripts/parsers/markdown.ts`) -/

/-- A parsed markdown section (the `Section` record of `markdown.ts`). -/
structure MdSection where
  title : Str
  level : Nat
  content : Str
  type : DocType
deriving DecidableEq, Repr

/-- Matcher for the `^(get|post|put|delete|patch)\s+\//` test of
`detectDocType`, applied after one of the verbs has been consumed:
one or more whitespace characters followed by a slash. -/
def wsSlash (rest : Str) : Bool :=
  !(rest.takeWhile jsWs).isEmpty && (rest.dropWhile jsWs).headD ' ' == '/'

/-- Matcher for `/^(get|post|put|delete|patch)\s+\//.test(lowerContent)`. -/
def verbSlash (lc : Str) : Bool :=
  [str "get", str "post", str "put", str "delete", str "patch"].any
    (fun v => pfx v lc && wsSlash (lc.drop v.length))

/-- Matcher for `/^class\s+\w+/.test(s)`: the word `class`, at least one
whitespace character, at least one word character. -/
def classDeclTest (s : Str) : Bool :=
  pfx (str "class") s &&
  (let rest := s.drop 5
   !(rest.takeWhile jsWs).isEmpty &&
   !((rest.dropWhile jsWs).takeWhile wordChar).isEmpty)

/-- `detectDocType` of `markdown.ts`: priority-ordered heuristic over the
section title and content. -/
def detectDocType (title content : Str) : DocType :=
  let lowerTitle := toLowerStr title
  let lowerContent := toLowerStr content
  if containsSub lowerTitle (str "endpoint") || verbSlash lowerContent then .apiEndpoint
  else if containsSub lowerTitle (str "example") || containsSub lowerTitle (str "usage") then .example
  else if containsSub lowerTitle (str "class") || classDeclTest content then .classT
  else if containsSub lowerTitle (str "function") || containsSub lowerTitle (str "method") then .function
  else .guide

/-- `saveSection` of `markdown.ts`: close the current section, emitting it only
when it exists, has accumulated lines, and its trimmed body is longer than 50
characters. -/
def saveSection (sections : List MdSection) (currentSection : Option (Str × Nat))
    (contentLines : List Str) : List MdSection :=
  match currentSection with
  | none => sections
  | some (title, level) =>
    if contentLines.isEmpty then sections
    else
      let sectionContent := jsTrim (joinNL contentLines)
      if sectionContent.length ≤ 50 then sections
      else sections ++ [⟨title, level, sectionContent, detectDocType title sectionContent⟩]

/-- Matcher for the heading pattern `^(#{1,4})\s+(.+)$`.  Returns the heading
level and the *trimmed* heading text (the call site immediately applies
`.trim()` to capture 2; for a heading whose text is pure whitespace the
backtracked capture is a single whitespace character, which also trims to the
empty string, so returning the trimmed text is faithful). -/
def headingMatch (line : Str) : Option (Nat × Str) :=
  let c := (line.takeWhile (· == '#')).length
  if 1 ≤ c ∧ c ≤ 4 then
    let rest := line.drop c
    let w := (rest.takeWhile jsWs).length
    if (1 ≤ w ∧ w < rest.length) ∨ (w = rest.length ∧ 2 ≤ w) then
      some (c, jsTrim rest)
    else none
  else none

/-- Scan state of `parseMarkdownSections`. -/
structure MdState where
  sections : List MdSection
  current : Option (Str × Nat)
  contentLines : List Str
deriving Repr

/-- One line of the `parseMarkdownSections` scan. -/
def mdStep (st : MdState) (line : Str) : MdState :=
  match headingMatch line with
  | some (level, title) =>
    ⟨saveSection st.sections st.current st.contentLines, some (title, level), []⟩
  | none => ⟨st.sections, st.current, st.contentLines ++ [line]⟩

/-- `parseMarkdownSections` of `markdown.ts`. -/
def parseMarkdownSections (content : Str) : List MdSection :=
  let st := (splitNL content).foldl mdStep ⟨[], none, []⟩
  saveSection st.sections st.current st.contentLines

/-- Run-collapsing scan used by `sanitizeName`: replace every maximal run of
characters outside `[a-z0-9]` by a single dash (`replaceAll(/[^a-z0-9]+/g, '-')`).
The boolean records whether the previous character was part of such a run. -/
def collapseGo : Bool → Str → Str
  | _, [] => []
  | inRun, c :: rest =>
    if alnumLower c then c :: collapseGo false rest
    else if inRun then collapseGo true rest
    else '-' :: collapseGo true rest

/-- `replaceAll(/^-|-$/g, '')`: remove a single leading and a single trailing
dash (after run collapsing there is at most one of each). -/
def stripDashes (s : Str) : Str :=
  let s1 := match s with
    | '-' :: t => t
    | _ => s
  match s1.reverse with
  | '-' :: t => t.reverse
  | _ => s1

/-- `sanitizeName` of `markdown.ts`. -/
def sanitizeName (name : Str) : Str :=
  (stripDashes (collapseGo false (toLowerStr name))).take 64

/-- Pair every list element with its index, starting at `i` (model of the
index argument of `Array.prototype.map`). -/
def withIdx : Nat → List α → List (Nat × α)
  | _, [] => []
  | i, a :: as => (i, a) :: withIdx (i + 1) as

/-- The chunk built for one markdown section (the body of the `sections.map`
call in `parseMarkdownDocs`). -/
def mkMarkdownChunk (source : DocSource) (version : Option Str)
    (p : Nat × MdSection) : DocChunk :=
  let sec := p.2
  let safeName := sanitizeName sec.title
  { id := sourceStr source ++ str ":" ++ docTypeStr sec.type ++ str ":" ++
      safeName ++ str "-" ++ natStr p.1
    source := source
    type := sec.type
    name := sec.title
    content := joinNL [str "# " ++ sec.title, [], sec.content]
    version := version }

/-- `parseMarkdownDocs` of `markdown.ts` (the document text is passed directly;
the file read is outside the recognizer core). -/
def parseMarkdownDocs (content : Str) (source : DocSource)
    (version : Option Str) : ParserResult :=
  let sections := parseMarkdownSections content
  { source := source
    version := version
    chunks := (withIdx 0 sections).map (mkMarkdownChunk source version) }

/-! ## Command-list recognizer (`scripts/parsers/unreal-console.ts`) -/

/-- The two entry kinds of the command-list format. -/
inductive ConsoleType
  | cvar
  | ccmd
deriving DecidableEq, Repr

/-- A parsed command-list entry (the `ConsoleEntry` record). -/
structure ConsoleEntry where
  name : Str
  ctype : ConsoleType
  description : Str
deriving DecidableEq, Repr

/-- The (mojibake) em-dash separator that the heading regex of
`unreal-console.ts` matches literally. -/
def emDashMojibake : Str := [Char.ofNat 226, Char.ofNat 8364, Char.ofNat 8221]

/-- The backtick character. -/
def backtick : Char := Char.ofNat 96

/-- Matcher for the heading pattern of `parseConsoleMarkdown`:
three hashes, whitespace, a backtick-quoted name, whitespace, the literal
(mojibake) em-dash, whitespace, then `Console Variable` or `Console Command`. -/
def consoleHeaderMatch (line : Str) : Option (Str × ConsoleType) :=
  match line with
  | '#' :: '#' :: '#' :: rest =>
    if (rest.takeWhile jsWs).isEmpty then none
    else
      match rest.dropWhile jsWs with
      | c :: r1 =>
        if c == backtick then
          let nm := r1.takeWhile (· != backtick)
          if nm.isEmpty then none
          else
            match r1.dropWhile (· != backtick) with
            | _ :: r2 =>
              if (r2.takeWhile jsWs).isEmpty then none
              else
                let r3 := r2.dropWhile jsWs
                if pfx emDashMojibake r3 then
                  let r4 := r3.drop emDashMojibake.length
                  if (r4.takeWhile jsWs).isEmpty then none
                  else
                    let r5 := r4.dropWhile jsWs
                    if pfx (str "Console Variable") r5 then some (nm, .cvar)
                    else if pfx (str "Console Command") r5 then some (nm, .ccmd)
                    else none
                else none
            | [] => none
        else none
      | [] => none
  | _ => none

/-- `saveEntry` of `unreal-console.ts`: push the pending entry (if any) with
its accumulated description. -/
def saveEntry (entries : List ConsoleEntry) (currentEntry : Option (Str × ConsoleType))
    (descriptionLines : List Str) : List ConsoleEntry :=
  match currentEntry with
  | none => entries
  | some (name, ctype) => entries ++ [⟨name, ctype, jsTrim (joinNL descriptionLines)⟩]

/-- Scan state of `parseConsoleMarkdown`. -/
structure ConsoleState where
  entries : List ConsoleEntry
  current : Option (Str × ConsoleType)
  descLines : List Str
deriving Repr

/-- One line of the `parseConsoleMarkdown` scan: a heading closes the pending
entry and opens a new one; other non-empty lines not starting with `#`
accumulate (trimmed) while an entry is open. -/
def consoleStep (st : ConsoleState) (line : Str) : ConsoleState :=
  match consoleHeaderMatch line with
  | some (name, ctype) =>
    ⟨saveEntry st.entries st.current st.descLines, some (name, ctype), []⟩
  | none =>
    if st.current.isSome && !(jsTrim line).isEmpty && !pfx (str "#") line then
      ⟨st.entries, st.current, st.descLines ++ [jsTrim line]⟩
    else st

/-- `parseConsoleMarkdown` of `unreal-console.ts`. -/
def parseConsoleMarkdown (content : Str) : List ConsoleEntry :=
  let st := (splitNL content).foldl consoleStep ⟨[], none, []⟩
  saveEntry st.entries st.current st.descLines

/-- The id fragment for a console entry kind. -/
def consoleTypeStr : ConsoleType → Str
  | .cvar => str "console-variable"
  | .ccmd => str "console-command"

/-- The human-readable kind label used in console chunk content. -/
def consoleTypeLabel : ConsoleType → Str
  | .cvar => str "Console Variable"
  | .ccmd => str "Console Command"

/-- The chunk built for one console entry (the body of the `entries.map` call
in `parseUnrealConsole`). -/
def mkConsoleChunk (version : Option Str) (e : ConsoleEntry) : DocChunk :=
  { id := str "unreal-console:" ++ consoleTypeStr e.ctype ++ str ":" ++ e.name
    source := .unrealConsole
    type := match e.ctype with
      | .cvar => .consoleVariable
      | .ccmd => .consoleCommand
    name := e.name
    content := joinNL
      [str "# " ++ e.name, str "Type: " ++ consoleTypeLabel e.ctype, [], e.description]
    version := version }

/-- `parseUnrealConsole` of `unreal-console.ts` (document text passed directly). -/
def parseUnrealConsole (content : Str) (version : Option Str) : ParserResult :=
  { source := .unrealConsole
    version := version
    chunks := (parseConsoleMarkdown content).map (mkConsoleChunk version) }

/-! ## Stub-file recognizer (`scripts/parsers/unreal-python.ts`): matchers -/

/-- Information collected for one recognized class (the `ClassInfo` record). -/
structure ClassInfo where
  name : Str
  parent : Option Str
  docstring : Str
  cppSource : Str
  isEnum : Bool
  lineNumber : Nat
  endLine : Nat
deriving DecidableEq, Repr

/-- Information collected for one recognized method (the `MethodInfo` record). -/
structure MethodInfo where
  name : Str
  className : Str
  signature : Str
  docstring : Str
  isClassMethod : Bool
  isStatic : Bool
deriving DecidableEq, Repr

/-- Information collected for one recognized property (the `PropertyInfo` record). -/
structure PropertyInfo where
  name : Str
  className : Str
  type : Str
  docstring : Str
  readonly : Bool
deriving DecidableEq, Repr

/-- An enum member with its description (the `EnumValue` record). -/
structure EnumValue where
  name : Str
  description : Str
deriving DecidableEq, Repr

/-- Matcher for the class-declaration pattern
`^class\s+(\w+)(?:\(([^)]*)\))?:` of `parseClasses`.  Returns the class name
and, when the parenthesised group is present, its raw contents. -/
def classMatch (line : Str) : Option (Str × Option Str) :=
  if pfx (str "class") line then
    let rest := line.drop 5
    if (rest.takeWhile jsWs).isEmpty then none
    else
      let r1 := rest.dropWhile jsWs
      let name := r1.takeWhile wordChar
      if name.isEmpty then none
      else
        match r1.dropWhile wordChar with
        | '(' :: r2 =>
          let inside := r2.takeWhile (· != ')')
          match r2.dropWhile (· != ')') with
          | _ :: ':' :: _ => some (name, some inside)
          | _ => none
        | ':' :: _ => some (name, none)
        | _ => none
  else none

/-- `classMatch[2]?.split(',')[0]?.trim()`: the first comma-separated item of
the parent list, trimmed. -/
def firstParent (s : Str) : Str := jsTrim (s.takeWhile (· != ','))

/-- Matcher for the method-declaration pattern
`^[ ]{4}def\s+([a-z_][a-z0-9_]*)\s*\(([^)]*)\)\s*(?:->\s*([^:]+))?:` of
`processMethodLine`.  Returns the method name, the raw parameter text, and the
raw return-type capture when the arrow group is present (the call site trims
the capture, and trimming the raw text between the arrow and the first colon
gives exactly the trimmed value of the backtracked capture). -/
def methodMatch (line : Str) : Option (Str × Str × Option Str) :=
  if pfx (str "    def") line then
    let rest := line.drop 7
    if (rest.takeWhile jsWs).isEmpty then none
    else
      let r1 := rest.dropWhile jsWs
      if !lowerUnder (r1.headD ' ') then none
      else
        let name := r1.takeWhile lowerWordChar
        match (r1.dropWhile lowerWordChar).dropWhile jsWs with
        | '(' :: r3 =>
          let params := r3.takeWhile (· != ')')
          match r3.dropWhile (· != ')') with
          | _ :: r4 =>
            match r4.dropWhile jsWs with
            | ':' :: _ => some (name, params, none)
            | '-' :: '>' :: r6 =>
              let t := r6.takeWhile (· != ':')
              if t.isEmpty then none
              else
                match r6.dropWhile (· != ':') with
                | ':' :: _ => some (name, params, some t)
                | _ => none
            | _ => none
          | [] => none
        | _ => none
  else none

/-- Matcher for the property-declaration pattern
`^[ ]{4}def\s+([a-z_][a-z0-9_]*)\s*\(self\)\s*->\s*([^:]+):` of
`parseProperties`.  Returns the property name and the raw type capture
(trimmed at the call site, see `methodMatch`). -/
def propMatch (line : Str) : Option (Str × Str) :=
  if pfx (str "    def") line then
    let rest := line.drop 7
    if (rest.takeWhile jsWs).isEmpty then none
    else
      let r1 := rest.dropWhile jsWs
      if !lowerUnder (r1.headD ' ') then none
      else
        let name := r1.takeWhile lowerWordChar
        let r2 := (r1.dropWhile lowerWordChar).dropWhile jsWs
        if pfx (str "(self)") r2 then
          match (r2.drop 6).dropWhile jsWs with
          | '-' :: '>' :: r6 =>
            let t := r6.takeWhile (· != ':')
            if t.isEmpty then none
            else
              match r6.dropWhile (· != ':') with
              | ':' :: _ => some (name, t)
              | _ => none
          | _ => none
        else none
  else none

/-- The tail of the enum-member pattern after the literal `#:`, i.e.
`\s*(?:\d+:\s*)?(.+)$`, already composed with the `.trim()` the call site
applies to the captured description.  Backtracking makes a heading-only
all-whitespace tail capture a single whitespace character, and makes a tail
consisting only of a numeric discriminant capture the discriminant itself;
both agree with this model after trimming. -/
def enumDescOfTail (tail : Str) : Option Str :=
  if tail.isEmpty then none
  else
    let r := tail.dropWhile jsWs
    let d := r.takeWhile digitChar
    if !d.isEmpty && (r.drop d.length).headD ' ' == ':' && !(r.drop (d.length + 1)).isEmpty then
      some (jsTrim (r.drop (d.length + 1)))
    else some (jsTrim r)

/-- Matcher for the enum-member pattern
`^\s+([A-Z_][A-Z0-9_]*)\s*:\s*\w+\s*=\s*\.\.\.\s*#:\s*(?:\d+:\s*)?(.+)$` of
`extractEnumValues`, composed with the `.trim()` applied to the description. -/
def enumValueMatch (line : Str) : Option (Str × Str) :=
  if (line.takeWhile jsWs).isEmpty then none
  else
    let r1 := line.dropWhile jsWs
    if !upperUnder (r1.headD ' ') then none
    else
      let name := r1.takeWhile upperWordChar
      match (r1.dropWhile upperWordChar).dropWhile jsWs with
      | ':' :: r3 =>
        let r4 := r3.dropWhile jsWs
        let ty := r4.takeWhile wordChar
        if ty.isEmpty then none
        else
          match (r4.dropWhile wordChar).dropWhile jsWs with
          | '=' :: r6 =>
            match r6.dropWhile jsWs with
            | '.' :: '.' :: '.' :: r8 =>
              match r8.dropWhile jsWs with
              | '#' :: ':' :: tail => (enumDescOfTail tail).map (fun d => (name, d))
              | _ => none
            | _ => none
          | _ => none
      | _ => none

/-! ## Stub-file recognizer: docstrings and scan -/

/-- The closing marker of a quoted documentation block. -/
def tripleQuote : Str := str "\"\"\""

/-- Boolean test that one list ends with another (model of `endsWith`). -/
def sfx (pat s : Str) : Bool := pfx pat.reverse s.reverse

/-- First index of an occurrence of `pat` (model of `String.prototype.indexOf`). -/
def findSubIdx (pat : Str) : Str → Option Nat
  | [] => if pat.isEmpty then some 0 else none
  | c :: t => if pfx pat (c :: t) then some 0 else (findSubIdx pat t).map (· + 1)

/-- The repeated `trim().startsWith('r"""') || trim().startsWith('"""')` test
(applied to an already-trimmed line). -/
def startsDoc (trimmed : Str) : Bool :=
  pfx (str "r\"\"\"") trimmed || pfx tripleQuote trimmed

/-- The accumulation loop of `extractDocstring`: gather lines until one
contains the closing marker, keeping the text before the marker on the closing
line; returns the gathered lines and the final `endIndex`.  The loop is
written with a structural fuel argument (always instantiated with
`lines.length`, which bounds the remaining iterations). -/
def docstringLoop (lines : List Str) : Nat → Nat → Nat → List Str × Nat
  | 0, _, lastEnd => ([], lastEnd)
  | fuel + 1, i, lastEnd =>
    if h : i < lines.length then
      let currentLine := lines.get ⟨i, h⟩
      match findSubIdx tripleQuote currentLine with
      | some closeIdx => ([currentLine.take closeIdx], i)
      | none =>
        let (rest, e) := docstringLoop lines fuel (i + 1) i
        (currentLine :: rest, e)
    else ([], lastEnd)

/-- `extractDocstring` of `unreal-python.ts`. -/
def extractDocstring (lines : List Str) (startIndex : Nat) : Str × Nat :=
  match lines.get? startIndex with
  | none => ([], startIndex)
  | some line =>
    let trimmed := jsTrim line
    if !startsDoc trimmed then ([], startIndex)
    else
      let startMarkerLen := if pfx (str "r\"\"\"") trimmed then 4 else 3
      if sfx tripleQuote trimmed && startMarkerLen + 3 < trimmed.length then
        (jsTrim ((trimmed.drop startMarkerLen).take (trimmed.length - startMarkerLen - 3)),
          startIndex)
      else
        let (docLines, endIdx) := docstringLoop lines lines.length (startIndex + 1) startIndex
        (jsTrim (joinNL (trimmed.drop startMarkerLen :: docLines)), endIdx)

/-- Search for a literal tag followed by `\s*(\S+)` anywhere in the text; on a
position where the tag occurs but no non-whitespace value follows, the engine
keeps searching at later positions (model of the `/\*\*Tag\*\*:\s*(\S+)/`
searches of `extractCppSource`). -/
def searchTagVal (tag : Str) : Str → Option Str
  | [] => none
  | c :: rest =>
    if pfx tag (c :: rest) then
      let after := ((c :: rest).drop tag.length).dropWhile jsWs
      let v := after.takeWhile (fun x => !jsWs x)
      if v.isEmpty then searchTagVal tag rest else some v
    else searchTagVal tag rest

/-- Model of `Array.prototype.join(', ')`. -/
def joinComma : List Str → Str
  | [] => []
  | [s] => s
  | s :: rest => s ++ str ", " ++ joinComma rest

/-- `extractCppSource` of `unreal-python.ts`. -/
def extractCppSource (docstring : Str) : Str :=
  let parts :=
    (match searchTagVal (str "**Plugin**:") docstring with
      | some v => [str "Plugin: " ++ v]
      | none => []) ++
    (match searchTagVal (str "**Module**:") docstring with
      | some v => [str "Module: " ++ v]
      | none => []) ++
    (match searchTagVal (str "**File**:") docstring with
      | some v => [str "File: " ++ v]
      | none => [])
  joinComma parts

/-- The literal marker removed from docstrings by `createClassChunk`. -/
def cppMarker : Str := str "**C++ Source:**"

/-- Length of the lazy `[\s\S]*?` stretch: the smallest number of characters
before a `\n\n` or `**` lookahead (or the end of the text). -/
def lazyEnd : Str → Nat
  | [] => 0
  | c :: rest =>
    if pfx (str "\n\n") (c :: rest) || pfx (str "**") (c :: rest) then 0
    else 1 + lazyEnd rest

/-- Fuel-indexed scan of `cleanCpp`; every step consumes at least one
character, so fuel equal to the length of the text always suffices. -/
def cleanCppGo : Nat → Str → Str
  | 0, _ => []
  | fuel + 1, s =>
    match s with
    | [] => []
    | c :: rest =>
      if pfx cppMarker (c :: rest) then
        let after := rest.drop 14
        cleanCppGo fuel (after.drop (lazyEnd after))
      else c :: cleanCppGo fuel rest

/-- Model of
`replaceAll(/\*\*C\+\+ Source:\*\*[\s\S]*?(?=\n\n|\*\*|$)/g, '')`
from `createClassChunk`: delete every marker together with the lazy stretch up
to (but not including) the next `\n\n`, `**`, or end of text. -/
def cleanCpp (s : Str) : Str := cleanCppGo s.length s

/-- The indexed loop of `extractEnumValues`, with a structural fuel argument
(instantiated with `e`, a bound on the remaining iterations). -/
def extractEnumValuesGo (lines : List Str) : Nat → Nat → Nat → List EnumValue
  | 0, _, _ => []
  | fuel + 1, i, e =>
    if h : i < e ∧ i < lines.length then
      match enumValueMatch (lines.get ⟨i, h.2⟩) with
      | some (n, d) => ⟨n, d⟩ :: extractEnumValuesGo lines fuel (i + 1) e
      | none => extractEnumValuesGo lines fuel (i + 1) e
    else []

/-- `extractEnumValues` of `unreal-python.ts`. -/
def extractEnumValues (lines : List Str) (startLine endLine : Nat) : List EnumValue :=
  extractEnumValuesGo lines endLine startLine endLine

/-- The search loop of `findClassEnd` (structural fuel, instantiated with
`lines.length`): first line at or after `j` matching `^class\s+\w+`, else the
number of lines. -/
def findClassEndGo (lines : List Str) : Nat → Nat → Nat
  | 0, _ => lines.length
  | fuel + 1, j =>
    if h : j < lines.length then
      if classDeclTest (lines.get ⟨j, h⟩) then j else findClassEndGo lines fuel (j + 1)
    else lines.length

/-- `findClassEnd` of `unreal-python.ts`. -/
def findClassEnd (lines : List Str) (startLine : Nat) : Nat :=
  findClassEndGo lines lines.length (startLine + 1)

/-- The `ClassInfo` record pushed by `parseClasses` for a class-declaration
match at line `i`. -/
def buildClassInfo (lines : List Str) (i : Nat) (nm : Str) (grp : Option Str) : ClassInfo :=
  let parentClass := grp.map firstParent
  let isEnum := parentClass == some (str "EnumBase")
  let endLine := findClassEnd lines i
  let docstring :=
    match lines.get? (i + 1) with
    | some nextLine =>
      if startsDoc (jsTrim nextLine) then (extractDocstring lines (i + 1)).1 else []
    | none => []
  { name := nm
    parent := parentClass
    docstring := docstring
    cppSource := extractCppSource docstring
    isEnum := isEnum
    lineNumber := i
    endLine := endLine }

/-- The scan loop of `parseClasses` (structural fuel, instantiated with
`lines.length`). -/
def parseClassesGo (lines : List Str) : Nat → Nat → List ClassInfo
  | 0, _ => []
  | fuel + 1, i =>
    if h : i < lines.length then
      match classMatch (lines.get ⟨i, h⟩) with
      | some (nm, grp) => buildClassInfo lines i nm grp :: parseClassesGo lines fuel (i + 1)
      | none => parseClassesGo lines fuel (i + 1)
    else []

/-- `parseClasses` of `unreal-python.ts`. -/
def parseClasses (lines : List Str) : List ClassInfo :=
  parseClassesGo lines lines.length 0

/-- The private/dunder allow-list of `processMethodLine`. -/
def allowedPrivate : List Str := [str "__init__", str "__enter__", str "__exit__"]

/-- The docstring lookup shared by `processMethodLine` and `parseProperties`:
extract a docstring starting at `docIndex` when that line opens one. -/
def docstringAt (lines : List Str) (docIndex : Nat) : Str :=
  match lines.get? docIndex with
  | some docLine =>
    if startsDoc (jsTrim docLine) then (extractDocstring lines docIndex).1 else []
  | none => []

/-- `processMethodLine` of `unreal-python.ts`. -/
def processMethodLine (line : Str) (classInfo : ClassInfo) (lines : List Str)
    (lineIndex : Nat) (isClassMethod isStatic : Bool) : Option MethodInfo :=
  match methodMatch line with
  | none => none
  | some (methodName, params, retOpt) =>
    let returnType := (retOpt.map jsTrim).getD (str "None")
    if pfx (str "_") methodName && !allowedPrivate.contains methodName then none
    else
      some
        { name := methodName
          className := classInfo.name
          signature := methodName ++ '(' :: params ++ str ") -> " ++ returnType
          docstring := docstringAt lines (lineIndex + 1)
          isClassMethod := isClassMethod
          isStatic := isStatic }

/-- The scan loop of `parseMethods` (structural fuel, instantiated with
`classInfo.endLine`), with the per-iteration classmethod/staticmethod flags. -/
def parseMethodsGo (lines : List Str) (classInfo : ClassInfo) :
    Nat → Nat → Bool → Bool → List MethodInfo
  | 0, _, _, _ => []
  | fuel + 1, i, isClassMethod, isStatic =>
    if h : i < classInfo.endLine ∧ i < lines.length then
      let line := lines.get ⟨i, h.2⟩
      if jsTrim line == str "@classmethod" then
        parseMethodsGo lines classInfo fuel (i + 1) true isStatic
      else if jsTrim line == str "@staticmethod" then
        parseMethodsGo lines classInfo fuel (i + 1) isClassMethod true
      else
        match processMethodLine line classInfo lines i isClassMethod isStatic with
        | some m => m :: parseMethodsGo lines classInfo fuel (i + 1) false false
        | none => parseMethodsGo lines classInfo fuel (i + 1) false false
    else []

/-- `parseMethods` of `unreal-python.ts`. -/
def parseMethods (lines : List Str) (classInfo : ClassInfo) : List MethodInfo :=
  parseMethodsGo lines classInfo classInfo.endLine classInfo.lineNumber false false

/-- `checkHasSetter` of `unreal-python.ts` (structural fuel, instantiated with
the end index `e`). -/
def checkHasSetter (lines : List Str) : Nat → Nat → Nat → Str → Bool
  | 0, _, _, _ => false
  | fuel + 1, j, e, propName =>
    if j < e then
      (match lines.get? j with
        | some checkLine => containsSub checkLine ('@' :: propName ++ str ".setter")
        | none => false) ||
      checkHasSetter lines fuel (j + 1) e propName
    else false

/-- The scan loop of `parseProperties` (structural fuel, instantiated with
`classInfo.endLine`). -/
def parsePropertiesGo (lines : List Str) (classInfo : ClassInfo) :
    Nat → Nat → List PropertyInfo
  | 0, _ => []
  | fuel + 1, i =>
    if h : i < classInfo.endLine ∧ i < lines.length then
      let line := lines.get ⟨i, h.2⟩
      if jsTrim line != str "@property" then parsePropertiesGo lines classInfo fuel (i + 1)
      else
        match lines.get? (i + 1) with
        | none => parsePropertiesGo lines classInfo fuel (i + 1)
        | some propLine =>
          match propMatch propLine with
          | none => parsePropertiesGo lines classInfo fuel (i + 1)
          | some (propName, tyRaw) =>
            let e := min (i + 20) classInfo.endLine
            let readonly := !checkHasSetter lines e (i + 1) e propName
            { name := propName
              className := classInfo.name
              type := jsTrim tyRaw
              docstring := docstringAt lines (i + 2)
              readonly := readonly } :: parsePropertiesGo lines classInfo fuel (i + 1)
    else []

/-- `parseProperties` of `unreal-python.ts`. -/
def parseProperties (lines : List Str) (classInfo : ClassInfo) : List PropertyInfo :=
  parsePropertiesGo lines classInfo classInfo.endLine classInfo.lineNumber

/-- One itemized enum member line of class-chunk content. -/
def mkEnumValueItem (v : EnumValue) : Str := str "  " ++ v.name ++ str ": " ++ v.description

/-- `createClassChunk` of `unreal-python.ts`. -/
def createClassChunk (classInfo : ClassInfo) (lines : List Str) : DocChunk :=
  let p1 := [str "# " ++ classInfo.name]
  let p2 := p1 ++ (match classInfo.parent with
    | some p => [str "Inherits from: " ++ p]
    | none => [])
  let p3 := p2 ++ (if classInfo.cppSource.isEmpty then []
    else [str "C++ Source: " ++ classInfo.cppSource])
  let p4 := p3 ++ [[]]
  let cleanDoc := jsTrim (cleanCpp classInfo.docstring)
  let p5 := p4 ++ (if cleanDoc.isEmpty then [] else [cleanDoc])
  let p6 := p5 ++ (if classInfo.isEnum then
      (let enumValues := extractEnumValues lines classInfo.lineNumber classInfo.endLine
       if enumValues.isEmpty then []
       else [[], str "Values:"] ++ enumValues.map mkEnumValueItem)
    else [])
  { id := str "unreal-python:" ++ (if classInfo.isEnum then str "enum" else str "class") ++
      str ":" ++ classInfo.name
    source := .unrealPython
    type := if classInfo.isEnum then .enumT else .classT
    name := classInfo.name
    content := joinNL p6 }

/-- `createMethodChunk` of `unreal-python.ts`. -/
def createMethodChunk (method : MethodInfo) : DocChunk :=
  let p1 := [str "# " ++ method.className ++ '.' :: method.name, [],
    str "Signature: " ++ method.signature]
  let p2 := p1 ++ (if method.isClassMethod then [str "Type: classmethod"]
    else if method.isStatic then [str "Type: staticmethod"]
    else [])
  let p3 := p2 ++ (if method.docstring.isEmpty then [] else [[], method.docstring])
  { id := str "unreal-python:method:" ++ method.className ++ '.' :: method.name
    source := .unrealPython
    type := .method
    name := method.name
    parentName := some method.className
    signature := some method.signature
    content := joinNL p3 }

/-- `createPropertyChunk` of `unreal-python.ts`. -/
def createPropertyChunk (prop : PropertyInfo) : DocChunk :=
  let rwStatus := if prop.readonly then str "[Read-Only]" else str "[Read-Write]"
  let p1 := [str "# " ++ prop.className ++ '.' :: prop.name, [],
    str "Type: " ++ prop.type ++ ' ' :: rwStatus]
  let p2 := p1 ++ (if prop.docstring.isEmpty then [] else [[], prop.docstring])
  { id := str "unreal-python:property:" ++ prop.className ++ '.' :: prop.name
    source := .unrealPython
    type := .property
    name := prop.name
    parentName := some prop.className
    content := joinNL p2 }

/-- Attach the per-document version tag to a chunk. -/
def setVersion (version : Option Str) (c : DocChunk) : DocChunk :=
  { c with version := version }

/-- The chunks contributed by one class in the main loop of
`parseUnrealPython`: the class/enum chunk, then (for non-enum classes) the
method chunks and the property chunks. -/
def perClassChunks (lines : List Str) (version : Option Str)
    (classInfo : ClassInfo) : List DocChunk :=
  let classChunk := setVersion version (createClassChunk classInfo lines)
  if classInfo.isEnum then [classChunk]
  else
    classChunk ::
      ((parseMethods lines classInfo).map (fun m => setVersion version (createMethodChunk m)) ++
       (parseProperties lines classInfo).map (fun p => setVersion version (createPropertyChunk p)))

/-- The chunk sequence produced by `parseUnrealPython` from a line list:
internal (underscore-prefixed) classes are skipped, every other class
contributes `perClassChunks`. -/
def parseUnrealPythonChunks (lines : List Str) (version : Option Str) : List DocChunk :=
  ((parseClasses lines).filter (fun c => !pfx (str "_") c.name)).flatMap
    (perClassChunks lines version)

/-- `content.replaceAll('\r\n', '\n')`: Windows line-ending normalization. -/
def normEOL : Str → Str
  | [] => []
  | '\r' :: '\n' :: rest => '\n' :: normEOL rest
  | c :: rest => c :: normEOL rest

/-- `parseUnrealPython` of `unreal-python.ts` (document text passed directly;
the per-run statistics line is I/O and outside the model). -/
def parseUnrealPython (content : Str) (version : Option Str) : ParserResult :=
  { source := .unrealPython
    version := version
    chunks := parseUnrealPythonChunks (splitNL (normEOL content)) version }

/-! ## Generic helper lemmas -/

theorem pfx_self_append (p r : Str) : pfx p (p ++ r) = true := by
  induction p with
  | nil => rfl
  | cons c t ih => simp [pfx, ih]

theorem pfx_decomp {p s : Str} (h : pfx p s = true) : ∃ r, s = p ++ r := by
  induction p generalizing s with
  | nil => exact ⟨s, rfl⟩
  | cons c t ih =>
    match s with
    | [] => simp [pfx] at h
    | d :: s' =>
      simp only [pfx, Bool.and_eq_true, beq_iff_eq] at h
      obtain ⟨r, hr⟩ := ih h.2
      exact ⟨r, by simp [h.1, hr]⟩

theorem containsSub_decomp (l p r : Str) : containsSub (l ++ p ++ r) p = true := by
  induction l with
  | nil =>
    simp only [List.nil_append]
    cases hpr : p ++ r with
    | nil =>
      have hp : p = [] := by cases p <;> simp_all
      simp [containsSub, hp, pfx]
    | cons c t =>
      have hself : pfx p (c :: t) = true := hpr ▸ pfx_self_append p r
      simp [containsSub, hself]
  | cons c t ih =>
    simp only [List.cons_append, containsSub, Bool.or_eq_true]
    exact Or.inr (by simpa [List.append_assoc] using ih)

theorem joinNL_mem_decomp {p : Str} {parts : List Str} (h : p ∈ parts) :
    ∃ l r, joinNL parts = l ++ p ++ r := by
  induction parts with
  | nil => simp at h
  | cons x rest ih =>
    rcases List.mem_cons.1 h with hx | hrest
    · cases rest with
      | nil => exact ⟨[], [], by simp [joinNL, hx]⟩
      | cons y ys => exact ⟨[], '\n' :: joinNL (y :: ys), by simp [joinNL, hx]⟩
    · obtain ⟨l, r, hlr⟩ := ih hrest
      cases rest with
      | nil => simp at hrest
      | cons y ys =>
        refine ⟨x ++ '\n' :: l, r, ?_⟩
        simp [joinNL, hlr]

theorem containsSub_joinNL_of_mem {p : Str} {parts : List Str} (h : p ∈ parts) :
    containsSub (joinNL parts) p = true := by
  obtain ⟨l, r, hlr⟩ := joinNL_mem_decomp h
  rw [hlr]
  exact containsSub_decomp l p r

theorem ne_nil_append {α : Type _} (a b : List α) (h : a ≠ []) : a ++ b ≠ [] := by
  cases a with
  | nil => exact absurd rfl h
  | cons x t => simp

/-! ## Decimal representation: `Nat.repr` is injective and dash-free -/

/-- The most-significant-first decimal digit list of a natural number
(the fuel-free form of `Nat.toDigitsCore`). -/
def digitsAux (n : Nat) : List Char :=
  if _h : n / 10 = 0 then [Nat.digitChar (n % 10)]
  else digitsAux (n / 10) ++ [Nat.digitChar (n % 10)]
termination_by n
decreasing_by
  exact Nat.div_lt_self (by omega) (by omega)

theorem toDigitsCore_eq_digitsAux :
    ∀ (fuel n : Nat) (ds : List Char), n < fuel →
      Nat.toDigitsCore 10 fuel n ds = digitsAux n ++ ds := by
  intro fuel
  induction fuel with
  | zero => intro n ds h; omega
  | succ f ih =>
    intro n ds h
    rw [digitsAux]
    by_cases h10 : n / 10 = 0
    · simp [Nat.toDigitsCore, h10]
    · have hlt : n / 10 < f := by
        have h1 : n / 10 < n := Nat.div_lt_self (by omega) (by omega)
        have h2 : 10 ≤ n := by
          by_contra hc
          exact h10 (Nat.div_eq_of_lt (by omega))
        omega
      simp only [Nat.toDigitsCore, h10, if_false, dif_neg]
      rw [ih (n / 10) _ hlt]
      simp [h10]

theorem natStr_eq_digitsAux (n : Nat) : natStr n = digitsAux n := by
  have : Nat.toDigitsCore 10 (n + 1) n [] = digitsAux n ++ [] :=
    toDigitsCore_eq_digitsAux (n + 1) n [] (by omega)
  simpa [natStr, Nat.repr, Nat.toDigits, List.asString] using this

theorem digitChar_val {d : Nat} (h : d < 10) : (Nat.digitChar d).toNat - 48 = d := by
  interval_cases d <;> rfl

theorem digitChar_isDigit {d : Nat} (h : d < 10) : digitChar (Nat.digitChar d) = true := by
  interval_cases d <;> rfl

theorem digitsAux_all_digits (n : Nat) : ∀ c ∈ digitsAux n, digitChar c = true := by
  induction n using Nat.strong_induction_on with
  | _ n ih =>
    rw [digitsAux]
    by_cases h10 : n / 10 = 0
    · simp only [h10, dif_pos]
      intro c hc
      simp only [List.mem_singleton] at hc
      subst hc
      exact digitChar_isDigit (Nat.mod_lt n (by omega))
    · simp only [h10, dif_neg]
      intro c hc
      rcases List.mem_append.1 hc with hl | hr
      · exact ih (n / 10) (Nat.div_lt_self (by omega) (by omega)) c hl
      · simp only [List.mem_singleton] at hr
        subst hr
        exact digitChar_isDigit (Nat.mod_lt n (by omega))

/-- Value of a most-significant-first decimal digit list. -/
def decimalVal (l : List Char) : Nat :=
  l.foldl (fun a c => 10 * a + (c.toNat - 48)) 0

theorem digitsAux_foldl (n : Nat) :
    ∀ a : Nat, (digitsAux n).foldl (fun a c => 10 * a + (c.toNat - 48)) a =
      a * 10 ^ (digitsAux n).length + n := by
  induction n using Nat.strong_induction_on with
  | _ n ih =>
    intro a
    by_cases h10 : n / 10 = 0
    · have hn : n < 10 := by
        by_contra hc
        have : 1 ≤ n / 10 := (Nat.le_div_iff_mul_le (by omega)).2 (by omega)
        omega
      rw [digitsAux, dif_pos h10]
      simp only [List.foldl_cons, List.foldl_nil, List.length_singleton, pow_one]
      rw [digitChar_val (Nat.mod_lt n (by omega))]
      rw [Nat.mod_eq_of_lt hn]
      ring
    · rw [digitsAux, dif_neg h10]
      rw [List.foldl_append]
      simp only [List.foldl_cons, List.foldl_nil, List.length_append, List.length_singleton]
      rw [ih (n / 10) (Nat.div_lt_self (by omega) (by omega)) a]
      rw [digitChar_val (Nat.mod_lt n (by omega))]
      rw [pow_succ]
      calc 10 * (a * 10 ^ (digitsAux (n / 10)).length + n / 10) + n % 10
          = a * (10 ^ (digitsAux (n / 10)).length * 10) + (10 * (n / 10) + n % 10) := by ring
        _ = a * (10 ^ (digitsAux (n / 10)).length * 10) + n := by rw [Nat.div_add_mod]

theorem decimalVal_digitsAux (n : Nat) : decimalVal (digitsAux n) = n := by
  have := digitsAux_foldl n 0
  simpa [decimalVal] using this

theorem natStr_injective {m n : Nat} (h : natStr m = natStr n) : m = n := by
  have hm := decimalVal_digitsAux m
  have hn := decimalVal_digitsAux n
  rw [natStr_eq_digitsAux, natStr_eq_digitsAux] at h
  rw [← h] at hn
  omega

theorem natStr_no_dash (n : Nat) : ∀ c ∈ natStr n, c ≠ '-' := by
  rw [natStr_eq_digitsAux]
  intro c hc
  have := digitsAux_all_digits n c hc
  intro hdash
  subst hdash
  simp [digitChar] at this

/-! ## The suffix after the last dash -/

/-- The suffix of a string after its last dash (the whole string when no dash
occurs). -/
def afterLastDash (s : Str) : Str := (s.reverse.takeWhile (· != '-')).reverse

theorem takeWhile_append_stop {α : Type _} (p : α → Bool) (xs : List α) (y : α)
    (ys : List α) (hxs : ∀ x ∈ xs, p x = true) (hy : p y = false) :
    (xs ++ y :: ys).takeWhile p = xs := by
  induction xs with
  | nil => simp [List.takeWhile, hy]
  | cons a t ih =>
    have ha : p a = true := hxs a (by simp)
    simp only [List.cons_append, List.takeWhile_cons, ha, if_pos]
    rw [ih (fun x hx => hxs x (by simp [hx]))]

theorem afterLastDash_append (l d : Str) (hd : ∀ c ∈ d, c ≠ '-') :
    afterLastDash (l ++ '-' :: d) = d := by
  unfold afterLastDash
  rw [List.reverse_append]
  simp only [List.reverse_cons, List.append_assoc, List.singleton_append]
  rw [takeWhile_append_stop _ d.reverse '-' l.reverse
    (fun x hx => by
      have := hd x (List.mem_reverse.1 hx)
      simp [this])
    (by simp)]
  simp

/-! ## Structural lemmas about the scans -/

theorem withIdx_length {α : Type _} : ∀ (i : Nat) (l : List α), (withIdx i l).length = l.length
  | _, [] => rfl
  | i, _ :: as => by simp [withIdx, withIdx_length (i + 1) as]

theorem parseClassesGo_nil_of_no_match (lines : List Str)
    (h : ∀ l ∈ lines, classMatch l = none) :
    ∀ fuel i, parseClassesGo lines fuel i = [] := by
  intro fuel
  induction fuel with
  | zero => intro i; rfl
  | succ f ih =>
    intro i
    by_cases hi : i < lines.length
    · rw [parseClassesGo, dif_pos hi, h (lines.get ⟨i, hi⟩) (lines.get_mem i hi)]
      exact ih (i + 1)
    · rw [parseClassesGo, dif_neg hi]

theorem mdFold_no_heading (lines : List Str) (h : ∀ l ∈ lines, headingMatch l = none) :
    ∀ sections cls,
      lines.foldl mdStep ⟨sections, none, cls⟩ =
        ⟨sections, none, cls ++ lines⟩ := by
  induction lines with
  | nil => intro s cls; simp
  | cons l ls ih =>
    intro s cls
    have hstep : mdStep ⟨s, none, cls⟩ l = ⟨s, none, cls ++ [l]⟩ := by
      simp [mdStep, h l (by simp)]
    simp only [List.foldl_cons, hstep]
    rw [ih (fun x hx => h x (by simp [hx])) s (cls ++ [l])]
    simp

theorem csFold_no_heading (lines : List Str) (h : ∀ l ∈ lines, consoleHeaderMatch l = none)
    (entries : List ConsoleEntry) (desc : List Str) :
    lines.foldl consoleStep ⟨entries, none, desc⟩ = ⟨entries, none, desc⟩ := by
  induction lines with
  | nil => simp
  | cons l ls ih =>
    have hstep : consoleStep ⟨entries, none, desc⟩ l = ⟨entries, none, desc⟩ := by
      simp [consoleStep, h l (by simp)]
    simp only [List.foldl_cons, hstep]
    exact ih (fun x hx => h x (by simp [hx]))

/-! ## Claims C4, C7, C10 -/

/-- Claim C4: for every markdown section opened by a heading line and later
closed, a chunk is emitted if and only if the section's trimmed body exceeds
50 characters (each emitted section yields exactly one chunk); a heading
followed by exactly 10 characters of body yields zero chunks, and a heading
followed by 60 characters of body yields exactly one chunk. -/
theorem claim_c4 :
    (∀ (sections : List MdSection) (title : Str) (level : Nat) (contentLines : List Str),
      saveSection sections (some (title, level)) contentLines =
        if 50 < (jsTrim (joinNL contentLines)).length then
          sections ++ [⟨title, level, jsTrim (joinNL contentLines),
            detectDocType title (jsTrim (joinNL contentLines))⟩]
        else sections) ∧
    (∀ (content : Str) (source : DocSource) (version : Option Str),
      ((parseMarkdownDocs content source version).chunks).length =
        (parseMarkdownSections content).length) ∧
    parseMarkdownSections (str "# T\n0123456789") = [] ∧
    ((parseMarkdownDocs (str "# T\n" ++ List.replicate 60 'a') DocSource.pyqtReference
        none).chunks).length = 1 := by
  refine ⟨?_, ?_, by decide, by decide⟩
  · intro sections title level contentLines
    cases contentLines with
    | nil => simp [saveSection, joinNL, jsTrim]
    | cons l ls =>
      simp only [saveSection, List.isEmpty_cons, if_false, Bool.false_eq_true]
      by_cases hlen : (jsTrim (joinNL (l :: ls))).length ≤ 50
      · rw [if_pos hlen, if_neg (by omega)]
      · rw [if_neg hlen, if_pos (by omega)]
  · intro content source version
    simp [parseMarkdownDocs, withIdx_length]

/-- Claim C7: completely unstructured input degrades to the empty chunk
sequence for each recognizer (the embedded recognizers are total functions,
so no input can raise an error; a document in which no line matches the
recognizer's structural anchor yields zero chunks rather than a failure). -/
theorem claim_c7 (pyLines : List Str) (pyVersion : Option Str) (mdContent : Str)
    (mdSource : DocSource) (mdVersion : Option Str) (csContent : Str)
    (csVersion : Option Str)
    (hpy : ∀ l ∈ pyLines, classMatch l = none)
    (hmd : ∀ l ∈ splitNL mdContent, headingMatch l = none)
    (hcs : ∀ l ∈ splitNL csContent, consoleHeaderMatch l = none) :
    parseUnrealPythonChunks pyLines pyVersion = [] ∧
    (parseMarkdownDocs mdContent mdSource mdVersion).chunks = [] ∧
    (parseUnrealConsole csContent csVersion).chunks = [] := by
  refine ⟨?_, ?_, ?_⟩
  · rw [parseUnrealPythonChunks, parseClasses,
      parseClassesGo_nil_of_no_match pyLines hpy pyLines.length 0]
    rfl
  · rw [parseMarkdownDocs]
    simp only [parseMarkdownSections]
    rw [mdFold_no_heading (splitNL mdContent) hmd [] []]
    rfl
  · rw [parseUnrealConsole]
    simp only [parseConsoleMarkdown]
    rw [csFold_no_heading (splitNL csContent) hcs [] []]
    rfl

/-- Witness for claim C7 at concrete unstructured documents. -/
theorem claim_c7_witness :
    (∀ l ∈ [str "not python at all"], classMatch l = none) ∧
    (∀ l ∈ splitNL (str "just prose\nwithout headings"), headingMatch l = none) ∧
    (∀ l ∈ splitNL (str "no entries in sight"), consoleHeaderMatch l = none) ∧
    (parseUnrealPythonChunks [str "not python at all"] none = [] ∧
      (parseMarkdownDocs (str "just prose\nwithout headings") DocSource.pyqtTutorials
        none).chunks = [] ∧
      (parseUnrealConsole (str "no entries in sight") none).chunks = []) :=
  ⟨by decide, by decide, by decide,
    claim_c7 [str "not python at all"] none (str "just prose\nwithout headings")
      DocSource.pyqtTutorials none (str "no entries in sight") none
      (by decide) (by decide) (by decide)⟩

/-- Claim C10: a stub-file class recognized as an enum (declared parent
`EnumBase`) contributes exactly its single enum-typed chunk; no method and no
property chunks are derived from its span. -/
theorem claim_c10 (lines : List Str) (version : Option Str) (c : ClassInfo)
    (_hmem : c ∈ parseClasses lines) (henum : c.isEnum = true) :
    perClassChunks lines version c = [setVersion version (createClassChunk c lines)] ∧
    (createClassChunk c lines).type = DocType.enumT ∧
    ∀ ch ∈ perClassChunks lines version c,
      ch.type ≠ DocType.method ∧ ch.type ≠ DocType.property := by
  have h1 : perClassChunks lines version c = [setVersion version (createClassChunk c lines)] := by
    simp [perClassChunks, henum]
  refine ⟨h1, by simp [createClassChunk, henum], ?_⟩
  intro ch hch
  rw [h1] at hch
  simp only [List.mem_singleton] at hch
  subst hch
  simp [setVersion, createClassChunk, henum]

/-- Witness for claim C10 at a concrete one-member enum document. -/
theorem claim_c10_witness :
    (⟨str "Foo", some (str "EnumBase"), [], [], true, 0, 2⟩ : ClassInfo) ∈
      parseClasses [str "class Foo(EnumBase):", str "    RED: Foo = ... #: 0: the color red"] ∧
    (⟨str "Foo", some (str "EnumBase"), [], [], true, 0, 2⟩ : ClassInfo).isEnum = true ∧
    (perClassChunks [str "class Foo(EnumBase):", str "    RED: Foo = ... #: 0: the color red"]
        none ⟨str "Foo", some (str "EnumBase"), [], [], true, 0, 2⟩ =
      [setVersion none (createClassChunk ⟨str "Foo", some (str "EnumBase"), [], [], true, 0, 2⟩
        [str "class Foo(EnumBase):", str "    RED: Foo = ... #: 0: the color red"])] ∧
      (createClassChunk ⟨str "Foo", some (str "EnumBase"), [], [], true, 0, 2⟩
        [str "class Foo(EnumBase):", str "    RED: Foo = ... #: 0: the color red"]).type =
        DocType.enumT ∧
      ∀ ch ∈ perClassChunks
          [str "class Foo(EnumBase):", str "    RED: Foo = ... #: 0: the color red"]
          none ⟨str "Foo", some (str "EnumBase"), [], [], true, 0, 2⟩,
        ch.type ≠ DocType.method ∧ ch.type ≠ DocType.property) :=
  ⟨by decide, by decide,
    claim_c10 [str "class Foo(EnumBase):", str "    RED: Foo = ... #: 0: the color red"]
      none ⟨str "Foo", some (str "EnumBase"), [], [], true, 0, 2⟩ (by decide) (by decide)⟩

/-! ## Soundness of the class scan, and claims C3, C1 -/

theorem parseClassesGo_sound (lines : List Str) :
    ∀ fuel i c, c ∈ parseClassesGo lines fuel i →
      ∃ j, ∃ hj : j < lines.length, ∃ nm grp, i ≤ j ∧
        classMatch (lines.get ⟨j, hj⟩) = some (nm, grp) ∧
        c = buildClassInfo lines j nm grp := by
  intro fuel
  induction fuel with
  | zero => intro i c hc; simp [parseClassesGo] at hc
  | succ f ih =>
    intro i c hc
    by_cases hi : i < lines.length
    · rw [parseClassesGo, dif_pos hi] at hc
      cases hcm : classMatch (lines.get ⟨i, hi⟩) with
      | some p =>
        obtain ⟨nm, grp⟩ := p
        rw [hcm] at hc
        rcases List.mem_cons.1 hc with heq | htail
        · exact ⟨i, hi, nm, grp, Nat.le_refl i, hcm, heq⟩
        · obtain ⟨j, hj, nm', grp', hij, hcm', hbuild⟩ := ih (i + 1) c htail
          exact ⟨j, hj, nm', grp', by omega, hcm', hbuild⟩
      | none =>
        rw [hcm] at hc
        obtain ⟨j, hj, nm', grp', hij, hcm', hbuild⟩ := ih (i + 1) c hc
        exact ⟨j, hj, nm', grp', by omega, hcm', hbuild⟩
    · rw [parseClassesGo, dif_neg hi] at hc
      simp at hc

theorem classChunk_mem (lines : List Str) (version : Option Str) (c : ClassInfo)
    (hmem : c ∈ parseClasses lines) (hpub : pfx (str "_") c.name = false) :
    setVersion version (createClassChunk c lines) ∈ parseUnrealPythonChunks lines version := by
  rw [parseUnrealPythonChunks]
  apply List.mem_flatMap.2
  refine ⟨c, List.mem_filter.2 ⟨hmem, by simp [hpub]⟩, ?_⟩
  by_cases he : c.isEnum <;> simp [perClassChunks, he]

/-- Claim C3 (amended): every recognized top-level class whose name does not
begin with an underscore yields a class/enum chunk — even with no docstring —
whose content carries the inheritance metadata; underscore-prefixed
(internal) classes are skipped by the emission loop. -/
theorem claim_c3 (lines : List Str) (version : Option Str) (c : ClassInfo)
    (hmem : c ∈ parseClasses lines) (hpub : pfx (str "_") c.name = false) :
    setVersion version (createClassChunk c lines) ∈ parseUnrealPythonChunks lines version ∧
    (createClassChunk c lines).name = c.name ∧
    ∀ p, c.parent = some p →
      containsSub (createClassChunk c lines).content (str "Inherits from: " ++ p) = true := by
  refine ⟨classChunk_mem lines version c hmem hpub, rfl, ?_⟩
  intro p hp
  simp only [createClassChunk]
  apply containsSub_joinNL_of_mem
  simp [hp]

/-- Counterexample for claim C3 as stated: `class _Foo:` is recognized by the
class scan but contributes no chunk at all. -/
theorem claim_c3_counterexample :
    parseClasses [str "class _Foo:"] ≠ [] ∧
    parseUnrealPythonChunks [str "class _Foo:"] none = [] :=
  ⟨by decide, by decide⟩

/-- Witness for claim C3 at a concrete docstring-free class. -/
theorem claim_c3_witness :
    (⟨str "Bar", some (str "Base"), [], [], false, 0, 1⟩ : ClassInfo) ∈
      parseClasses [str "class Bar(Base):"] ∧
    pfx (str "_") (str "Bar") = false ∧
    (setVersion none (createClassChunk ⟨str "Bar", some (str "Base"), [], [], false, 0, 1⟩
        [str "class Bar(Base):"]) ∈
      parseUnrealPythonChunks [str "class Bar(Base):"] none ∧
      (createClassChunk ⟨str "Bar", some (str "Base"), [], [], false, 0, 1⟩
        [str "class Bar(Base):"]).name = str "Bar" ∧
      ∀ p, (⟨str "Bar", some (str "Base"), [], [], false, 0, 1⟩ : ClassInfo).parent = some p →
        containsSub (createClassChunk ⟨str "Bar", some (str "Base"), [], [], false, 0, 1⟩
          [str "class Bar(Base):"]).content (str "Inherits from: " ++ p) = true) :=
  ⟨by decide, by decide,
    claim_c3 [str "class Bar(Base):"] none
      ⟨str "Bar", some (str "Base"), [], [], false, 0, 1⟩ (by decide) (by decide)⟩

theorem withIdx_fst_le {α : Type _} :
    ∀ (i : Nat) (l : List α) (q : Nat × α), q ∈ withIdx i l → i ≤ q.1 := by
  intro i l
  induction l generalizing i with
  | nil => intro q hq; simp [withIdx] at hq
  | cons a as ih =>
    intro q hq
    rcases List.mem_cons.1 hq with heq | htail
    · subst heq; exact Nat.le_refl i
    · have := ih (i + 1) q htail
      omega

theorem withIdx_fst_lt {α : Type _} :
    ∀ (i : Nat) (l : List α),
      List.Pairwise (fun p q : Nat × α => p.1 < q.1) (withIdx i l) := by
  intro i l
  induction l generalizing i with
  | nil => exact List.Pairwise.nil
  | cons a as ih =>
    refine List.Pairwise.cons ?_ (ih (i + 1))
    intro q hq
    have := withIdx_fst_le (i + 1) as q hq
    omega

theorem mdId_eq (source : DocSource) (version : Option Str) (p : Nat × MdSection) :
    (mkMarkdownChunk source version p).id =
      (sourceStr source ++ str ":" ++ docTypeStr p.2.type ++ str ":" ++
        sanitizeName p.2.title) ++ '-' :: natStr p.1 := by
  have hdash : str "-" = ['-'] := rfl
  simp [mkMarkdownChunk, hdash, List.append_assoc]

theorem mdId_inj {source : DocSource} {version : Option Str} {p q : Nat × MdSection}
    (h : (mkMarkdownChunk source version p).id = (mkMarkdownChunk source version q).id) :
    p.1 = q.1 := by
  have hp : afterLastDash ((mkMarkdownChunk source version p).id) = natStr p.1 := by
    rw [mdId_eq]
    exact afterLastDash_append _ _ (natStr_no_dash p.1)
  have hq : afterLastDash ((mkMarkdownChunk source version q).id) = natStr q.1 := by
    rw [mdId_eq]
    exact afterLastDash_append _ _ (natStr_no_dash q.1)
  rw [h, hq] at hp
  exact (natStr_injective hp).symm

/-- Claim C1 (amended): the markdown recognizer's chunk ids are duplicate-free
for every document (the ordinal suffix separates repeated titles); the
stub-file and command-list recognizers derive ids from qualified names alone,
so distinct declarations sharing a name produce duplicate ids there. -/
theorem claim_c1 (content : Str) (source : DocSource) (version : Option Str) :
    (((parseMarkdownDocs content source version).chunks).map DocChunk.id).Nodup := by
  rw [parseMarkdownDocs]
  simp only [List.map_map]
  apply List.Pairwise.map _
    (fun a b hab heq => by
      have := mdId_inj heq
      omega)
    (withIdx_fst_lt 0 (parseMarkdownSections content))

/-- Counterexample for claim C1 as stated: two classes with the same name give
the stub-file recognizer two chunks with the same id. -/
theorem claim_c1_counterexample :
    ¬ ((parseUnrealPythonChunks [str "class Foo:", str "class Foo:"] none).map
        DocChunk.id).Nodup := by
  have h : (parseUnrealPythonChunks [str "class Foo:", str "class Foo:"] none).map
      DocChunk.id = [str "unreal-python:class:Foo", str "unreal-python:class:Foo"] := by
    decide
  rw [h]
  simp

/-! ## Claim C2: class spans -/

theorem classMatch_classDeclTest {l : Str} {x : Str × Option Str}
    (h : classMatch l = some x) : classDeclTest l = true := by
  unfold classMatch at h
  split at h
  case isTrue hpfx =>
    dsimp only at h
    split at h
    case isTrue => simp at h
    case isFalse hws =>
      split at h
      case isTrue => simp at h
      case isFalse hname =>
        unfold classDeclTest
        simp only [Bool.and_eq_true, hpfx, true_and]
        constructor
        · simpa using hws
        · simpa using hname
  case isFalse hpfx => simp at h

theorem findClassEndGo_min (lines : List Str) :
    ∀ fuel j target, ∀ ht : target < lines.length, j ≤ target → target < j + fuel →
      classDeclTest (lines.get ⟨target, ht⟩) = true →
      findClassEndGo lines fuel j ≤ target := by
  intro fuel
  induction fuel with
  | zero => intro j target ht hjt hf _; omega
  | succ f ih =>
    intro j target ht hjt hf htest
    have hj : j < lines.length := by omega
    rw [findClassEndGo, dif_pos hj]
    by_cases hd : classDeclTest (lines.get ⟨j, hj⟩) = true
    · rw [if_pos hd]; exact hjt
    · rw [if_neg hd]
      have hne : j ≠ target := by
        intro he
        subst he
        exact hd htest
      exact ih (j + 1) target ht (by omega) (by omega) htest

/-- Claim C2 (amended): the declared spans of recognized classes never overlap
one another — each class's span ends at or before the next recognized class's
declaration line.  The `def` line of a `@property`-decorated zero-argument
method, however, is matched independently by both the method scan and the
property scan, so it yields a method chunk *and* a property chunk (two chunks
from one declaration). -/
theorem claim_c2 (lines : List Str) (c1 c2 : ClassInfo)
    (h1 : c1 ∈ parseClasses lines) (h2 : c2 ∈ parseClasses lines)
    (hlt : c1.lineNumber < c2.lineNumber) :
    c1.endLine ≤ c2.lineNumber := by
  obtain ⟨j1, hj1, nm1, g1, _, hcm1, hb1⟩ := parseClassesGo_sound lines _ 0 c1 h1
  obtain ⟨j2, hj2, nm2, g2, _, hcm2, hb2⟩ := parseClassesGo_sound lines _ 0 c2 h2
  have hl1 : c1.lineNumber = j1 := by rw [hb1]; rfl
  have hl2 : c2.lineNumber = j2 := by rw [hb2]; rfl
  have he1 : c1.endLine = findClassEndGo lines lines.length (j1 + 1) := by rw [hb1]; rfl
  have htest : classDeclTest (lines.get ⟨j2, hj2⟩) = true := classMatch_classDeclTest hcm2
  rw [he1, hl2]
  exact findClassEndGo_min lines lines.length (j1 + 1) j2 hj2 (by omega) (by omega) htest

/-- Counterexample for claim C2 as stated: a `@property`-decorated def line
yields two chunks (one method, one property) rather than at most one. -/
theorem claim_c2_counterexample :
    1 < ((parseUnrealPythonChunks [str "class A:", str "    @property",
        str "    def foo(self) -> int:"] none).filter
          (fun ch => ch.name == str "foo")).length ∧
    (parseUnrealPythonChunks [str "class A:", str "    @property",
        str "    def foo(self) -> int:"] none).map DocChunk.type =
      [DocType.classT, DocType.method, DocType.property] :=
  ⟨by decide, by decide⟩

/-- Witness for claim C2 at a concrete two-class document. -/
theorem claim_c2_witness :
    (⟨str "A", none, [], [], false, 0, 1⟩ : ClassInfo) ∈
      parseClasses [str "class A:", str "class B:"] ∧
    (⟨str "B", none, [], [], false, 1, 2⟩ : ClassInfo) ∈
      parseClasses [str "class A:", str "class B:"] ∧
    (⟨str "A", none, [], [], false, 0, 1⟩ : ClassInfo).lineNumber <
      (⟨str "B", none, [], [], false, 1, 2⟩ : ClassInfo).lineNumber ∧
    (⟨str "A", none, [], [], false, 0, 1⟩ : ClassInfo).endLine ≤
      (⟨str "B", none, [], [], false, 1, 2⟩ : ClassInfo).lineNumber :=
  ⟨by decide, by decide, by decide,
    claim_c2 [str "class A:", str "class B:"]
      ⟨str "A", none, [], [], false, 0, 1⟩ ⟨str "B", none, [], [], false, 1, 2⟩
      (by decide) (by decide) (by decide)⟩

/-! ## Claim C8: command-list entries with empty descriptions -/

theorem csFold_skip (rest : List Str)
    (h : ∀ l ∈ rest, consoleHeaderMatch l = none ∧
      (jsTrim l = [] ∨ pfx (str "#") l = true)) (st : ConsoleState) :
    rest.foldl consoleStep st = st := by
  induction rest with
  | nil => rfl
  | cons l ls ih =>
    have h1 := h l (by simp)
    have hstep : consoleStep st l = st := by
      rcases h1.2 with he | hp
      · simp [consoleStep, h1.1, he]
      · simp [consoleStep, h1.1, hp]
    rw [List.foldl_cons, hstep]
    exact ih (fun x hx => h x (by simp [hx]))

/-- Claim C8: a command-list entry whose heading matches the heading pattern
but which accumulates no description lines before the next heading or end of
input is still emitted — exactly one entry is appended, with an empty
description — and its chunk's content is the header line and kind line
followed by an empty body. -/
theorem claim_c8 (hdr : Str) (rest : List Str) (name : Str) (t : ConsoleType)
    (entries0 : List ConsoleEntry) (cur0 : Option (Str × ConsoleType))
    (desc0 : List Str) (version : Option Str)
    (hhdr : consoleHeaderMatch hdr = some (name, t))
    (hrest : ∀ l ∈ rest, consoleHeaderMatch l = none ∧
      (jsTrim l = [] ∨ pfx (str "#") l = true)) :
    (let final := (hdr :: rest).foldl consoleStep ⟨entries0, cur0, desc0⟩
     saveEntry final.entries final.current final.descLines =
       saveEntry entries0 cur0 desc0 ++ [⟨name, t, []⟩]) ∧
    (mkConsoleChunk version (⟨name, t, []⟩ : ConsoleEntry)).content =
      str "# " ++ name ++ str "\nType: " ++ consoleTypeLabel t ++ str "\n\n" ∧
    (mkConsoleChunk version (⟨name, t, []⟩ : ConsoleEntry)).name = name ∧
    (∀ (content : Str) (v : Option Str),
      ((parseUnrealConsole content v).chunks).length =
        (parseConsoleMarkdown content).length) := by
  refine ⟨?_, ?_, rfl, ?_⟩
  · have hstep : consoleStep ⟨entries0, cur0, desc0⟩ hdr =
        ⟨saveEntry entries0 cur0 desc0, some (name, t), []⟩ := by
      simp [consoleStep, hhdr]
    simp only [List.foldl_cons, hstep]
    rw [csFold_skip rest hrest ⟨saveEntry entries0 cur0 desc0, some (name, t), []⟩]
    simp [saveEntry, joinNL, jsTrim]
  · have h1 : str "\nType: " = '\n' :: str "Type: " := rfl
    have h2 : str "\n\n" = ['\n', '\n'] := rfl
    simp [mkConsoleChunk, joinNL, h1, h2, List.append_assoc]
  · intro content v
    simp [parseUnrealConsole]

/-- Witness for claim C8 at a concrete heading with no description. -/
theorem claim_c8_witness :
    consoleHeaderMatch (str "### `r.Foo` â€” Console Variable") =
      some (str "r.Foo", ConsoleType.cvar) ∧
    (∀ l ∈ [str "", str "## section"], consoleHeaderMatch l = none ∧
      (jsTrim l = [] ∨ pfx (str "#") l = true)) ∧
    ((let final := ((str "### `r.Foo` â€” Console Variable") ::
          [str "", str "## section"]).foldl consoleStep ⟨[], none, []⟩
      saveEntry final.entries final.current final.descLines =
        saveEntry [] none [] ++ [⟨str "r.Foo", ConsoleType.cvar, []⟩]) ∧
      (mkConsoleChunk none (⟨str "r.Foo", ConsoleType.cvar, []⟩ : ConsoleEntry)).content =
        str "# " ++ str "r.Foo" ++ str "\nType: " ++ consoleTypeLabel ConsoleType.cvar ++
          str "\n\n" ∧
      (mkConsoleChunk none (⟨str "r.Foo", ConsoleType.cvar, []⟩ : ConsoleEntry)).name =
        str "r.Foo" ∧
      (∀ (content : Str) (v : Option Str),
        ((parseUnrealConsole content v).chunks).length =
          (parseConsoleMarkdown content).length)) :=
  ⟨by decide, by decide,
    claim_c8 (str "### `r.Foo` â€” Console Variable") [str "", str "## section"]
      (str "r.Foo") ConsoleType.cvar [] none [] none (by decide) (by decide)⟩

/-! ## Claim C6: enum recognition and member extraction -/

theorem containsSub_joinNL_of_mem_ext (q : Str) {p : Str} {parts : List Str}
    (hmem : q ∈ parts) (hdecomp : ∃ a b, q = a ++ p ++ b) :
    containsSub (joinNL parts) p = true := by
  obtain ⟨l, r, hlr⟩ := joinNL_mem_decomp hmem
  obtain ⟨a, b, hab⟩ := hdecomp
  rw [hlr, hab]
  have hassoc : l ++ (a ++ p ++ b) ++ r = (l ++ a) ++ p ++ (b ++ r) := by
    simp [List.append_assoc]
  rw [hassoc]
  exact containsSub_decomp _ _ _

theorem extractEnumValuesGo_mem (lines : List Str) :
    ∀ fuel lo e i n d, ∀ hi : i < lines.length, lo ≤ i → i < e → e ≤ lo + fuel →
      enumValueMatch (lines.get ⟨i, hi⟩) = some (n, d) →
      (⟨n, d⟩ : EnumValue) ∈ extractEnumValuesGo lines fuel lo e := by
  intro fuel
  induction fuel with
  | zero => intro lo e i n d hi hlo hie hf _; omega
  | succ f ih =>
    intro lo e i n d hi hlo hie hf hmatch
    have hcond : lo < e ∧ lo < lines.length := ⟨by omega, by omega⟩
    rw [extractEnumValuesGo, dif_pos hcond]
    by_cases heq : lo = i
    · subst heq
      rw [hmatch]
      exact List.mem_cons_self _ _
    · have hmem := ih (lo + 1) e i n d hi (by omega) hie (by omega) hmatch
      cases hlo2 : enumValueMatch (lines.get ⟨lo, hcond.2⟩) with
      | some p2 =>
        obtain ⟨n2, d2⟩ := p2
        exact List.mem_cons_of_mem _ hmem
      | none => exact hmem

theorem buildClassInfo_isEnum (lines : List Str) (j : Nat) (nm : Str) (grp : Option Str) :
    (buildClassInfo lines j nm grp).isEnum =
      ((buildClassInfo lines j nm grp).parent == some (str "EnumBase")) := rfl

/-- Claim C6: a class whose declared parent is the sentinel `EnumBase` is
treated as an enum: its chunk has type `enum`, and every member line in its
span matching the member pattern contributes a `NAME: description` item to
the chunk's content. -/
theorem claim_c6 (lines : List Str) (c : ClassInfo) (n d : Str) (i : Nat)
    (hc : c ∈ parseClasses lines) (hp : c.parent = some (str "EnumBase"))
    (hi1 : c.lineNumber ≤ i) (hi2 : i < c.endLine) (hi3 : i < lines.length)
    (hmatch : enumValueMatch (lines.get ⟨i, hi3⟩) = some (n, d)) :
    c.isEnum = true ∧
    (createClassChunk c lines).type = DocType.enumT ∧
    (createClassChunk c lines).name = c.name ∧
    containsSub (createClassChunk c lines).content (n ++ str ": " ++ d) = true := by
  have henum : c.isEnum = true := by
    obtain ⟨j, hj, nm, grp, _, _, hb⟩ := parseClassesGo_sound lines _ 0 c hc
    rw [hb, buildClassInfo_isEnum, ← hb, hp]
    simp
  have hval : (⟨n, d⟩ : EnumValue) ∈ extractEnumValues lines c.lineNumber c.endLine :=
    extractEnumValuesGo_mem lines c.endLine c.lineNumber c.endLine i n d hi3 hi1 hi2
      (by omega) hmatch
  have hnonempty : (extractEnumValues lines c.lineNumber c.endLine).isEmpty = false := by
    cases hE : extractEnumValues lines c.lineNumber c.endLine with
    | nil => rw [hE] at hval; simp at hval
    | cons a as => simp
  refine ⟨henum, by simp [createClassChunk, henum], rfl, ?_⟩
  simp only [createClassChunk, henum, hnonempty]
  apply containsSub_joinNL_of_mem_ext (mkEnumValueItem ⟨n, d⟩)
  · simp only [Bool.false_eq_true, if_false, if_true, List.mem_append, List.mem_cons,
      List.mem_map]
    right
    right
    exact ⟨⟨n, d⟩, hval, rfl⟩
  · exact ⟨str "  ", [], by simp [mkEnumValueItem, List.append_assoc]⟩

/-- Witness for claim C6 at a concrete one-member enum. -/
theorem claim_c6_witness :
    (⟨str "Foo", some (str "EnumBase"), [], [], true, 0, 2⟩ : ClassInfo) ∈
      parseClasses [str "class Foo(EnumBase):",
        str "    RED: Foo = ... #: 0: the color red"] ∧
    (⟨str "Foo", some (str "EnumBase"), [], [], true, 0, 2⟩ : ClassInfo).parent =
      some (str "EnumBase") ∧
    enumValueMatch ([str "class Foo(EnumBase):",
        str "    RED: Foo = ... #: 0: the color red"].get ⟨1, by decide⟩) =
      some (str "RED", str "the color red") ∧
    ((⟨str "Foo", some (str "EnumBase"), [], [], true, 0, 2⟩ : ClassInfo).isEnum = true ∧
      (createClassChunk ⟨str "Foo", some (str "EnumBase"), [], [], true, 0, 2⟩
        [str "class Foo(EnumBase):", str "    RED: Foo = ... #: 0: the color red"]).type =
        DocType.enumT ∧
      (createClassChunk ⟨str "Foo", some (str "EnumBase"), [], [], true, 0, 2⟩
        [str "class Foo(EnumBase):", str "    RED: Foo = ... #: 0: the color red"]).name =
        str "Foo" ∧
      containsSub (createClassChunk ⟨str "Foo", some (str "EnumBase"), [], [], true, 0, 2⟩
        [str "class Foo(EnumBase):", str "    RED: Foo = ... #: 0: the color red"]).content
        (str "RED" ++ str ": " ++ str "the color red") = true) :=
  ⟨by decide, by decide, by decide,
    claim_c6 [str "class Foo(EnumBase):", str "    RED: Foo = ... #: 0: the color red"]
      ⟨str "Foo", some (str "EnumBase"), [], [], true, 0, 2⟩
      (str "RED") (str "the color red") 1
      (by decide) (by decide) (by decide) (by decide) (by decide) (by decide)⟩

/-! ## Claim C5: decorator flags tag exactly one method -/

/-- A line whose trimmed text is one of the two method decorators. -/
def isDecLine (l : Str) : Bool :=
  jsTrim l == str "@classmethod" || jsTrim l == str "@staticmethod"

theorem dropWhile_append_last {α : Type _} (p : α → Bool) (xs : List α) (c : α)
    (hc : p c = false) : ∃ ys, (xs ++ [c]).dropWhile p = ys ++ [c] := by
  induction xs with
  | nil => exact ⟨[], by simp [List.dropWhile, hc]⟩
  | cons a t ih =>
    by_cases ha : p a = true
    · obtain ⟨ys, hys⟩ := ih
      exact ⟨ys, by simp [List.dropWhile_cons, ha, hys]⟩
    · exact ⟨a :: t, by simp [List.dropWhile_cons, ha]⟩

theorem beq_false_of_head_ne {a b : Char} (as bs : Str) (h : a ≠ b) :
    ((a :: as) == (b :: bs)) = false := by
  cases hab : (a :: as) == (b :: bs)
  · rfl
  · have := eq_of_beq hab
    simp only [List.cons.injEq] at this
    exact absurd this.1 h

theorem methodMatch_pfx {l : Str} {x : Str × Str × Option Str}
    (h : methodMatch l = some x) : pfx (str "    def") l = true := by
  by_contra hc
  rw [methodMatch, if_neg hc] at h
  exact absurd h (by simp)

theorem methodMatch_not_dec {l : Str} {x : Str × Str × Option Str}
    (h : methodMatch l = some x) : isDecLine l = false := by
  obtain ⟨r, hr⟩ := pfx_decomp (methodMatch_pfx h)
  have hdrop : l.dropWhile jsWs = 'd' :: 'e' :: 'f' :: r := by
    rw [hr]
    show List.dropWhile jsWs (' ' :: ' ' :: ' ' :: ' ' :: 'd' :: 'e' :: 'f' :: r) = _
    rw [List.dropWhile_cons, if_pos (by decide)]
    rw [List.dropWhile_cons, if_pos (by decide)]
    rw [List.dropWhile_cons, if_pos (by decide)]
    rw [List.dropWhile_cons, if_pos (by decide)]
    rw [List.dropWhile_cons, if_neg (by decide)]
  obtain ⟨ys, hys⟩ := dropWhile_append_last jsWs ('e' :: 'f' :: r).reverse 'd' (by decide)
  have htrim : jsTrim l = 'd' :: ys.reverse := by
    rw [jsTrim, hdrop]
    rw [show ('d' :: 'e' :: 'f' :: r).reverse = ('e' :: 'f' :: r).reverse ++ ['d'] from by simp]
    rw [hys]
    simp
  rw [isDecLine, htrim]
  rw [show str "@classmethod" = '@' :: str "classmethod" from rfl]
  rw [show str "@staticmethod" = '@' :: str "staticmethod" from rfl]
  rw [beq_false_of_head_ne _ _ (by decide), beq_false_of_head_ne _ _ (by decide)]
  rfl

theorem processMethodLine_some {line : Str} {c : ClassInfo} {lines : List Str}
    {j : Nat} {cm st : Bool} {m : MethodInfo}
    (h : processMethodLine line c lines j cm st = some m) :
    m.isClassMethod = cm ∧ m.isStatic = st ∧ m.className = c.name ∧
    ∃ x, methodMatch line = some x := by
  rw [processMethodLine] at h
  cases hmm : methodMatch line with
  | none => rw [hmm] at h; exact absurd h (by simp)
  | some x =>
    obtain ⟨nm, params, ret⟩ := x
    rw [hmm] at h
    dsimp only at h
    split at h
    · exact absurd h (by simp)
    · injection h with h1
      refine ⟨?_, ?_, ?_, ⟨(nm, params, ret), rfl⟩⟩ <;> rw [← h1]

theorem parseMethodsGo_succ_eq (lines : List Str) (c : ClassInfo) (fuel i : Nat)
    (cm st : Bool) :
    parseMethodsGo lines c (fuel + 1) i cm st =
      if h : i < c.endLine ∧ i < lines.length then
        if jsTrim (lines.get ⟨i, h.2⟩) == str "@classmethod" then
          parseMethodsGo lines c fuel (i + 1) true st
        else if jsTrim (lines.get ⟨i, h.2⟩) == str "@staticmethod" then
          parseMethodsGo lines c fuel (i + 1) cm true
        else
          match processMethodLine (lines.get ⟨i, h.2⟩) c lines i cm st with
          | some m => m :: parseMethodsGo lines c fuel (i + 1) false false
          | none => parseMethodsGo lines c fuel (i + 1) false false
      else [] := rfl

theorem parseMethodsGo_fuel (lines : List Str) (c : ClassInfo) :
    ∀ f1 f2 i cm st, min c.endLine lines.length ≤ i + f1 →
      min c.endLine lines.length ≤ i + f2 →
      parseMethodsGo lines c f1 i cm st = parseMethodsGo lines c f2 i cm st := by
  intro f1
  induction f1 with
  | zero =>
    intro f2 i cm st h1 _
    have hge : ¬ (i < c.endLine ∧ i < lines.length) := by omega
    cases f2 with
    | zero => rfl
    | succ g =>
      rw [show parseMethodsGo lines c 0 i cm st = [] from rfl,
        parseMethodsGo_succ_eq, dif_neg hge]
  | succ g1 ih =>
    intro f2 i cm st h1 h2
    cases f2 with
    | zero =>
      have hge : ¬ (i < c.endLine ∧ i < lines.length) := by omega
      rw [parseMethodsGo_succ_eq, dif_neg hge]
      rfl
    | succ g2 =>
      by_cases hcond : i < c.endLine ∧ i < lines.length
      · rw [parseMethodsGo_succ_eq, parseMethodsGo_succ_eq, dif_pos hcond, dif_pos hcond]
        by_cases hA : (jsTrim (lines.get ⟨i, hcond.2⟩) == str "@classmethod") = true
        · rw [if_pos hA, if_pos hA]
          exact ih g2 (i + 1) true st (by omega) (by omega)
        · rw [if_neg hA, if_neg hA]
          by_cases hB : (jsTrim (lines.get ⟨i, hcond.2⟩) == str "@staticmethod") = true
          · rw [if_pos hB, if_pos hB]
            exact ih g2 (i + 1) cm true (by omega) (by omega)
          · rw [if_neg hB, if_neg hB]
            cases hP : processMethodLine (lines.get ⟨i, hcond.2⟩) c lines i cm st with
            | some m =>
              dsimp only
              rw [ih g2 (i + 1) false false (by omega) (by omega)]
            | none =>
              dsimp only
              exact ih g2 (i + 1) false false (by omega) (by omega)
      · rw [parseMethodsGo_succ_eq, parseMethodsGo_succ_eq, dif_neg hcond, dif_neg hcond]

theorem parseMethodsGo_split (lines : List Str) (c : ClassInfo) (k : Nat)
    (hk1 : k ≤ c.endLine) (hk2 : k ≤ lines.length) (hkl : k - 1 < lines.length)
    (hkdec : isDecLine (lines.get ⟨k - 1, hkl⟩) = false) :
    ∀ d j cm st, j < k → k - j ≤ d →
      ∃ pre, parseMethodsGo lines c c.endLine j cm st =
        pre ++ parseMethodsGo lines c c.endLine k false false := by
  intro d
  induction d with
  | zero => intro j cm st hj hd; omega
  | succ n ih =>
    intro j cm st hj hd
    have hf : c.endLine = (c.endLine - 1) + 1 := by omega
    have hcond : j < c.endLine ∧ j < lines.length := ⟨by omega, by omega⟩
    have hunf : parseMethodsGo lines c c.endLine j cm st =
        parseMethodsGo lines c ((c.endLine - 1) + 1) j cm st := by rw [← hf]
    rw [hunf, parseMethodsGo_succ_eq, dif_pos hcond]
    have hnorm : ∀ cm' st', parseMethodsGo lines c (c.endLine - 1) (j + 1) cm' st' =
        parseMethodsGo lines c c.endLine (j + 1) cm' st' := fun cm' st' =>
      parseMethodsGo_fuel lines c (c.endLine - 1) c.endLine (j + 1) cm' st'
        (by omega) (by omega)
    have hnotlast : ∀ hA : (jsTrim (lines.get ⟨j, hcond.2⟩) == str "@classmethod") = true ∨
        (jsTrim (lines.get ⟨j, hcond.2⟩) == str "@staticmethod") = true, j + 1 ≠ k := by
      intro hA he
      have hfin : (⟨j, hcond.2⟩ : Fin lines.length) = ⟨k - 1, hkl⟩ := by
        apply Fin.ext
        simp
        omega
      rw [hfin] at hA
      rw [isDecLine] at hkdec
      rcases hA with h | h <;> rw [h] at hkdec <;> simp at hkdec
    by_cases hA : (jsTrim (lines.get ⟨j, hcond.2⟩) == str "@classmethod") = true
    · rw [if_pos hA, hnorm]
      have := hnotlast (Or.inl hA)
      exact ih (j + 1) true st (by omega) (by omega)
    · rw [if_neg hA]
      by_cases hB : (jsTrim (lines.get ⟨j, hcond.2⟩) == str "@staticmethod") = true
      · rw [if_pos hB, hnorm]
        have := hnotlast (Or.inr hB)
        exact ih (j + 1) cm true (by omega) (by omega)
      · rw [if_neg hB]
        cases hP : processMethodLine (lines.get ⟨j, hcond.2⟩) c lines j cm st with
        | some m =>
          dsimp only
          rw [hnorm]
          by_cases hjk : j + 1 = k
          · exact ⟨[m], by rw [hjk]; rfl⟩
          · obtain ⟨pre, hpre⟩ := ih (j + 1) false false (by omega) (by omega)
            exact ⟨m :: pre, by rw [hpre]; rfl⟩
        | none =>
          dsimp only
          rw [hnorm]
          by_cases hjk : j + 1 = k
          · exact ⟨[], by rw [hjk]; rfl⟩
          · exact ih (j + 1) false false (by omega) (by omega)

theorem or_beq_false_parts {a b : Bool} (h : (a || b) = false) : a = false ∧ b = false := by
  cases a <;> cases b <;> simp_all

theorem methodChunk_mem (lines : List Str) (version : Option Str) (c : ClassInfo)
    (m : MethodInfo) (hc : c ∈ parseClasses lines) (hpub : pfx (str "_") c.name = false)
    (hne : c.isEnum = false) (hm : m ∈ parseMethods lines c) :
    setVersion version (createMethodChunk m) ∈ parseUnrealPythonChunks lines version := by
  rw [parseUnrealPythonChunks]
  apply List.mem_flatMap.2
  refine ⟨c, List.mem_filter.2 ⟨hc, by simp [hpub]⟩, ?_⟩
  simp only [perClassChunks, hne, Bool.false_eq_true, if_false]
  apply List.mem_cons_of_mem
  apply List.mem_append_left
  exact List.mem_map_of_mem _ hm

theorem methodChunk_static_marker (m : MethodInfo) (h1 : m.isClassMethod = false)
    (h2 : m.isStatic = true) :
    containsSub (createMethodChunk m).content (str "Type: staticmethod") = true := by
  simp only [createMethodChunk, h1, h2, Bool.false_eq_true, if_false, if_true]
  apply containsSub_joinNL_of_mem
  simp

theorem methodChunk_class_marker (m : MethodInfo) (h1 : m.isClassMethod = true) :
    containsSub (createMethodChunk m).content (str "Type: classmethod") = true := by
  simp only [createMethodChunk, h1, if_true]
  apply containsSub_joinNL_of_mem
  simp

/-- Claim C5: a `@staticmethod` (or `@classmethod`) decorator line immediately
preceding a method declaration tags that single method only: the method is
emitted with the corresponding flag set, its chunk has type `method`,
`parentName` the enclosing class, and a `Type: staticmethod`
(resp. `Type: classmethod`) marker in its content; a later method whose
preceding line is not a decorator is emitted with both flags clear. -/
theorem claim_c5 (lines : List Str) (version : Option Str) (c : ClassInfo)
    (dec : Str) (i k : Nat) (m m2 : MethodInfo)
    (hc : c ∈ parseClasses lines)
    (hpub : pfx (str "_") c.name = false)
    (hne : c.isEnum = false)
    (hdec : dec = str "@classmethod" ∨ dec = str "@staticmethod")
    (hi0 : c.lineNumber ≤ i)
    (hi1 : i + 1 < c.endLine)
    (hi2 : i + 1 < lines.length)
    (hstat : jsTrim (lines.get ⟨i, by omega⟩) = dec)
    (hreset : i = c.lineNumber ∨
      (c.lineNumber < i ∧ isDecLine (lines.get ⟨i - 1, by omega⟩) = false))
    (hm : processMethodLine (lines.get ⟨i + 1, hi2⟩) c lines (i + 1)
      (dec == str "@classmethod") (dec == str "@staticmethod") = some m)
    (hk0 : c.lineNumber < k)
    (hk1 : k < c.endLine)
    (hk2 : k < lines.length)
    (hkdec : isDecLine (lines.get ⟨k - 1, by omega⟩) = false)
    (hmk : processMethodLine (lines.get ⟨k, hk2⟩) c lines k false false = some m2) :
    (m ∈ parseMethods lines c ∧
      m.isClassMethod = (dec == str "@classmethod") ∧
      m.isStatic = (dec == str "@staticmethod") ∧
      setVersion version (createMethodChunk m) ∈ parseUnrealPythonChunks lines version ∧
      (createMethodChunk m).type = DocType.method ∧
      (createMethodChunk m).parentName = some c.name ∧
      containsSub (createMethodChunk m).content
        (if dec == str "@classmethod" then str "Type: classmethod"
         else str "Type: staticmethod") = true) ∧
    (m2 ∈ parseMethods lines c ∧ m2.isStatic = false ∧ m2.isClassMethod = false) := by
  obtain ⟨hm2cm, hm2st, hm2cl, x2, hx2⟩ := processMethodLine_some hmk
  have hf : c.endLine = (c.endLine - 1) + 1 := by omega
  -- part (b): the scan reaches line k with both flags clear
  obtain ⟨pre2, hpre2⟩ := parseMethodsGo_split lines c k (by omega) (by omega) (by omega)
    hkdec (k - c.lineNumber) c.lineNumber false false hk0 (by omega)
  have hcondk : k < c.endLine ∧ k < lines.length := ⟨hk1, hk2⟩
  have hdeck : isDecLine (lines.get ⟨k, hk2⟩) = false := methodMatch_not_dec hx2
  rw [isDecLine] at hdeck
  have hdeck' := or_beq_false_parts hdeck
  have hgetk : lines.get ⟨k, hcondk.2⟩ = lines.get ⟨k, hk2⟩ := rfl
  have hifk1 : ¬ ((jsTrim (lines.get ⟨k, hcondk.2⟩) == str "@classmethod") = true) := by
    rw [hgetk, hdeck'.1]
    simp
  have hifk2 : ¬ ((jsTrim (lines.get ⟨k, hcondk.2⟩) == str "@staticmethod") = true) := by
    rw [hgetk, hdeck'.2]
    simp
  have hstepk : parseMethodsGo lines c c.endLine k false false =
      m2 :: parseMethodsGo lines c c.endLine (k + 1) false false := by
    conv_lhs => rw [hf]
    rw [parseMethodsGo_succ_eq, dif_pos hcondk]
    rw [if_neg hifk1, if_neg hifk2]
    rw [hgetk, hmk]
    dsimp only
    rw [parseMethodsGo_fuel lines c (c.endLine - 1) c.endLine (k + 1) false false
      (by omega) (by omega)]
  have hmemB : m2 ∈ parseMethods lines c := by
    have hB : parseMethods lines c =
        pre2 ++ parseMethodsGo lines c c.endLine k false false := hpre2
    rw [hB, hstepk]
    exact List.mem_append_right _ (List.mem_cons_self _ _)
  -- part (a): shared pieces
  have hsplit_i : ∃ pre, parseMethods lines c =
      pre ++ parseMethodsGo lines c c.endLine i false false := by
    rcases hreset with hstart | ⟨hlt, hdec2⟩
    · exact ⟨[], by rw [parseMethods, hstart]; rfl⟩
    · exact parseMethodsGo_split lines c i (by omega) (by omega) (by omega) hdec2
        (i - c.lineNumber) c.lineNumber false false hlt (by omega)
  obtain ⟨pre1, hpre1⟩ := hsplit_i
  have hcondi : i < c.endLine ∧ i < lines.length := ⟨by omega, by omega⟩
  have hcondi1 : i + 1 < c.endLine ∧ i + 1 < lines.length := ⟨hi1, hi2⟩
  have hgeti : lines.get ⟨i + 1, hcondi1.2⟩ = lines.get ⟨i + 1, hi2⟩ := rfl
  refine ⟨?_, hmemB, hm2st, hm2cm⟩
  rcases hdec with hd | hd
  · -- the @classmethod case
    subst hd
    have hmeq1 : (str "@classmethod" == str "@classmethod") = true := by decide
    have hmeq2 : (str "@classmethod" == str "@staticmethod") = false := by decide
    rw [hmeq1, hmeq2] at hm
    obtain ⟨hmcm, hmst, hmcl, x, hx⟩ := processMethodLine_some hm
    have hdec1 : isDecLine (lines.get ⟨i + 1, hi2⟩) = false := methodMatch_not_dec hx
    rw [isDecLine] at hdec1
    have hdec1' := or_beq_false_parts hdec1
    have hif1 : ¬ ((jsTrim (lines.get ⟨i + 1, hcondi1.2⟩) == str "@classmethod") = true) := by
      rw [hgeti, hdec1'.1]
      simp
    have hif2 : ¬ ((jsTrim (lines.get ⟨i + 1, hcondi1.2⟩) == str "@staticmethod") = true) := by
      rw [hgeti, hdec1'.2]
      simp
    have hstep1 : parseMethodsGo lines c c.endLine i false false =
        parseMethodsGo lines c c.endLine (i + 1) true false := by
      conv_lhs => rw [hf]
      rw [parseMethodsGo_succ_eq, dif_pos hcondi]
      rw [show lines.get ⟨i, hcondi.2⟩ = lines.get ⟨i, by omega⟩ from rfl, hstat]
      rw [if_pos (by decide)]
      exact parseMethodsGo_fuel lines c (c.endLine - 1) c.endLine (i + 1) true false
        (by omega) (by omega)
    have hstep2 : parseMethodsGo lines c c.endLine (i + 1) true false =
        m :: parseMethodsGo lines c c.endLine (i + 2) false false := by
      conv_lhs => rw [hf]
      rw [parseMethodsGo_succ_eq, dif_pos hcondi1]
      rw [if_neg hif1, if_neg hif2]
      rw [hgeti, hm]
      dsimp only
      rw [parseMethodsGo_fuel lines c (c.endLine - 1) c.endLine (i + 2) false false
        (by omega) (by omega)]
    have hmemA : m ∈ parseMethods lines c := by
      rw [hpre1, hstep1, hstep2]
      exact List.mem_append_right _ (List.mem_cons_self _ _)
    refine ⟨hmemA, ?_, ?_, methodChunk_mem lines version c m hc hpub hne hmemA, rfl, ?_, ?_⟩
    · rw [hmcm]
      exact hmeq1.symm
    · rw [hmst]
      exact hmeq2.symm
    · show some m.className = some c.name
      rw [hmcl]
    · rw [hmeq1, if_pos rfl]
      exact methodChunk_class_marker m hmcm
  · -- the @staticmethod case
    subst hd
    have hmeq1 : (str "@staticmethod" == str "@classmethod") = false := by decide
    have hmeq2 : (str "@staticmethod" == str "@staticmethod") = true := by decide
    rw [hmeq1, hmeq2] at hm
    obtain ⟨hmcm, hmst, hmcl, x, hx⟩ := processMethodLine_some hm
    have hdec1 : isDecLine (lines.get ⟨i + 1, hi2⟩) = false := methodMatch_not_dec hx
    rw [isDecLine] at hdec1
    have hdec1' := or_beq_false_parts hdec1
    have hif1 : ¬ ((jsTrim (lines.get ⟨i + 1, hcondi1.2⟩) == str "@classmethod") = true) := by
      rw [hgeti, hdec1'.1]
      simp
    have hif2 : ¬ ((jsTrim (lines.get ⟨i + 1, hcondi1.2⟩) == str "@staticmethod") = true) := by
      rw [hgeti, hdec1'.2]
      simp
    have hstep1 : parseMethodsGo lines c c.endLine i false false =
        parseMethodsGo lines c c.endLine (i + 1) false true := by
      conv_lhs => rw [hf]
      rw [parseMethodsGo_succ_eq, dif_pos hcondi]
      rw [show lines.get ⟨i, hcondi.2⟩ = lines.get ⟨i, by omega⟩ from rfl, hstat]
      rw [if_neg (by decide), if_pos (by decide)]
      exact parseMethodsGo_fuel lines c (c.endLine - 1) c.endLine (i + 1) false true
        (by omega) (by omega)
    have hstep2 : parseMethodsGo lines c c.endLine (i + 1) false true =
        m :: parseMethodsGo lines c c.endLine (i + 2) false false := by
      conv_lhs => rw [hf]
      rw [parseMethodsGo_succ_eq, dif_pos hcondi1]
      rw [if_neg hif1, if_neg hif2]
      rw [hgeti, hm]
      dsimp only
      rw [parseMethodsGo_fuel lines c (c.endLine - 1) c.endLine (i + 2) false false
        (by omega) (by omega)]
    have hmemA : m ∈ parseMethods lines c := by
      rw [hpre1, hstep1, hstep2]
      exact List.mem_append_right _ (List.mem_cons_self _ _)
    refine ⟨hmemA, ?_, ?_, methodChunk_mem lines version c m hc hpub hne hmemA, rfl, ?_, ?_⟩
    · rw [hmcm]
      exact hmeq1.symm
    · rw [hmst]
      exact hmeq2.symm
    · show some m.className = some c.name
      rw [hmcl]
    · rw [hmeq1, if_neg (by simp)]
      exact methodChunk_static_marker m hmcm hmst

/-- Witness for claim C5 at two concrete classes: one with a `@staticmethod`
method and one with a `@classmethod` method, each followed by an undecorated
method. -/
theorem claim_c5_witness :
    ((⟨str "A", none, [], [], false, 0, 4⟩ : ClassInfo) ∈ parseClasses
      [str "class A:", str "    @staticmethod", str "    def bar(x: int) -> str:",
        str "    def baz(self) -> int:"] ∧
    (str "@staticmethod" = str "@classmethod" ∨ str "@staticmethod" = str "@staticmethod") ∧
    jsTrim ([str "class A:", str "    @staticmethod", str "    def bar(x: int) -> str:",
        str "    def baz(self) -> int:"].get ⟨1, by decide⟩) = str "@staticmethod" ∧
    processMethodLine ([str "class A:", str "    @staticmethod",
        str "    def bar(x: int) -> str:", str "    def baz(self) -> int:"].get
          ⟨2, by decide⟩)
      ⟨str "A", none, [], [], false, 0, 4⟩
      [str "class A:", str "    @staticmethod", str "    def bar(x: int) -> str:",
        str "    def baz(self) -> int:"] 2
      (str "@staticmethod" == str "@classmethod")
      (str "@staticmethod" == str "@staticmethod") =
      some ⟨str "bar", str "A", str "bar(x: int) -> str", [], false, true⟩ ∧
    isDecLine ([str "class A:", str "    @staticmethod", str "    def bar(x: int) -> str:",
        str "    def baz(self) -> int:"].get ⟨2, by decide⟩) = false ∧
    processMethodLine ([str "class A:", str "    @staticmethod",
        str "    def bar(x: int) -> str:", str "    def baz(self) -> int:"].get
          ⟨3, by decide⟩)
      ⟨str "A", none, [], [], false, 0, 4⟩
      [str "class A:", str "    @staticmethod", str "    def bar(x: int) -> str:",
        str "    def baz(self) -> int:"] 3 false false =
      some ⟨str "baz", str "A", str "baz(self) -> int", [], false, false⟩ ∧
    (((⟨str "bar", str "A", str "bar(x: int) -> str", [], false, true⟩ : MethodInfo) ∈
        parseMethods [str "class A:", str "    @staticmethod",
          str "    def bar(x: int) -> str:", str "    def baz(self) -> int:"]
          ⟨str "A", none, [], [], false, 0, 4⟩ ∧
      (⟨str "bar", str "A", str "bar(x: int) -> str", [], false, true⟩ :
        MethodInfo).isClassMethod = (str "@staticmethod" == str "@classmethod") ∧
      (⟨str "bar", str "A", str "bar(x: int) -> str", [], false, true⟩ :
        MethodInfo).isStatic = (str "@staticmethod" == str "@staticmethod") ∧
      setVersion none (createMethodChunk
          ⟨str "bar", str "A", str "bar(x: int) -> str", [], false, true⟩) ∈
        parseUnrealPythonChunks [str "class A:", str "    @staticmethod",
          str "    def bar(x: int) -> str:", str "    def baz(self) -> int:"] none ∧
      (createMethodChunk ⟨str "bar", str "A", str "bar(x: int) -> str", [], false,
        true⟩).type = DocType.method ∧
      (createMethodChunk ⟨str "bar", str "A", str "bar(x: int) -> str", [], false,
        true⟩).parentName = some (⟨str "A", none, [], [], false, 0, 4⟩ : ClassInfo).name ∧
      containsSub (createMethodChunk ⟨str "bar", str "A", str "bar(x: int) -> str", [],
        false, true⟩).content
        (if str "@staticmethod" == str "@classmethod" then str "Type: classmethod"
         else str "Type: staticmethod") = true) ∧
     ((⟨str "baz", str "A", str "baz(self) -> int", [], false, false⟩ : MethodInfo) ∈
        parseMethods [str "class A:", str "    @staticmethod",
          str "    def bar(x: int) -> str:", str "    def baz(self) -> int:"]
          ⟨str "A", none, [], [], false, 0, 4⟩ ∧
      (⟨str "baz", str "A", str "baz(self) -> int", [], false, false⟩ :
        MethodInfo).isStatic = false ∧
      (⟨str "baz", str "A", str "baz(self) -> int", [], false, false⟩ :
        MethodInfo).isClassMethod = false))) ∧
    ((⟨str "B", none, [], [], false, 0, 4⟩ : ClassInfo) ∈ parseClasses
      [str "class B:", str "    @classmethod", str "    def mk(cls) -> B:",
        str "    def plain(self) -> int:"] ∧
    (str "@classmethod" = str "@classmethod" ∨ str "@classmethod" = str "@staticmethod") ∧
    jsTrim ([str "class B:", str "    @classmethod", str "    def mk(cls) -> B:",
        str "    def plain(self) -> int:"].get ⟨1, by decide⟩) = str "@classmethod" ∧
    processMethodLine ([str "class B:", str "    @classmethod",
        str "    def mk(cls) -> B:", str "    def plain(self) -> int:"].get
          ⟨2, by decide⟩)
      ⟨str "B", none, [], [], false, 0, 4⟩
      [str "class B:", str "    @classmethod", str "    def mk(cls) -> B:",
        str "    def plain(self) -> int:"] 2
      (str "@classmethod" == str "@classmethod")
      (str "@classmethod" == str "@staticmethod") =
      some ⟨str "mk", str "B", str "mk(cls) -> B", [], true, false⟩ ∧
    isDecLine ([str "class B:", str "    @classmethod", str "    def mk(cls) -> B:",
        str "    def plain(self) -> int:"].get ⟨2, by decide⟩) = false ∧
    processMethodLine ([str "class B:", str "    @classmethod",
        str "    def mk(cls) -> B:", str "    def plain(self) -> int:"].get
          ⟨3, by decide⟩)
      ⟨str "B", none, [], [], false, 0, 4⟩
      [str "class B:", str "    @classmethod", str "    def mk(cls) -> B:",
        str "    def plain(self) -> int:"] 3 false false =
      some ⟨str "plain", str "B", str "plain(self) -> int", [], false, false⟩ ∧
    (((⟨str "mk", str "B", str "mk(cls) -> B", [], true, false⟩ : MethodInfo) ∈
        parseMethods [str "class B:", str "    @classmethod",
          str "    def mk(cls) -> B:", str "    def plain(self) -> int:"]
          ⟨str "B", none, [], [], false, 0, 4⟩ ∧
      (⟨str "mk", str "B", str "mk(cls) -> B", [], true, false⟩ :
        MethodInfo).isClassMethod = (str "@classmethod" == str "@classmethod") ∧
      (⟨str "mk", str "B", str "mk(cls) -> B", [], true, false⟩ :
        MethodInfo).isStatic = (str "@classmethod" == str "@staticmethod") ∧
      setVersion none (createMethodChunk
          ⟨str "mk", str "B", str "mk(cls) -> B", [], true, false⟩) ∈
        parseUnrealPythonChunks [str "class B:", str "    @classmethod",
          str "    def mk(cls) -> B:", str "    def plain(self) -> int:"] none ∧
      (createMethodChunk ⟨str "mk", str "B", str "mk(cls) -> B", [], true,
        false⟩).type = DocType.method ∧
      (createMethodChunk ⟨str "mk", str "B", str "mk(cls) -> B", [], true,
        false⟩).parentName = some (⟨str "B", none, [], [], false, 0, 4⟩ : ClassInfo).name ∧
      containsSub (createMethodChunk ⟨str "mk", str "B", str "mk(cls) -> B", [],
        true, false⟩).content
        (if str "@classmethod" == str "@classmethod" then str "Type: classmethod"
         else str "Type: staticmethod") = true) ∧
     ((⟨str "plain", str "B", str "plain(self) -> int", [], false, false⟩ : MethodInfo) ∈
        parseMethods [str "class B:", str "    @classmethod",
          str "    def mk(cls) -> B:", str "    def plain(self) -> int:"]
          ⟨str "B", none, [], [], false, 0, 4⟩ ∧
      (⟨str "plain", str "B", str "plain(self) -> int", [], false, false⟩ :
        MethodInfo).isStatic = false ∧
      (⟨str "plain", str "B", str "plain(self) -> int", [], false, false⟩ :
        MethodInfo).isClassMethod = false))) :=
  ⟨⟨by decide, by decide, by decide, by decide, by decide, by decide,
    claim_c5
      [str "class A:", str "    @staticmethod", str "    def bar(x: int) -> str:",
        str "    def baz(self) -> int:"]
      none ⟨str "A", none, [], [], false, 0, 4⟩ (str "@staticmethod") 1 3
      ⟨str "bar", str "A", str "bar(x: int) -> str", [], false, true⟩
      ⟨str "baz", str "A", str "baz(self) -> int", [], false, false⟩
      (by decide) (by decide) (by decide) (by decide) (by decide) (by decide)
      (by decide) (by decide) (by decide) (by decide) (by decide) (by decide)
      (by decide) (by decide) (by decide)⟩,
   ⟨by decide, by decide, by decide, by decide, by decide, by decide,
    claim_c5
      [str "class B:", str "    @classmethod", str "    def mk(cls) -> B:",
        str "    def plain(self) -> int:"]
      none ⟨str "B", none, [], [], false, 0, 4⟩ (str "@classmethod") 1 3
      ⟨str "mk", str "B", str "mk(cls) -> B", [], true, false⟩
      ⟨str "plain", str "B", str "plain(self) -> int", [], false, false⟩
      (by decide) (by decide) (by decide) (by decide) (by decide) (by decide)
      (by decide) (by decide) (by decide) (by decide) (by decide) (by decide)
      (by decide) (by decide) (by decide)⟩⟩

/-! ## Claim C9: chunk field validity -/
/-! ## Claim C9: chunk field validity -/

theorem classMatch_name_ne {l : Str} {nm : Str} {grp : Option Str}
    (h : classMatch l = some (nm, grp)) : nm ≠ [] := by
  rw [classMatch] at h
  split at h
  case isFalse => exact absurd h (by simp)
  case isTrue =>
    dsimp only at h
    split at h
    case isTrue => exact absurd h (by simp)
    case isFalse =>
      split at h
      case isTrue => exact absurd h (by simp)
      case isFalse hname =>
        split at h <;>
          first
            | exact Option.noConfusion h
            | (split at h <;>
                first
                  | exact Option.noConfusion h
                  | (simp only [Option.some.injEq, Prod.mk.injEq] at h
                     intro hc
                     apply hname
                     rw [h.1, hc]
                     rfl))
            | (simp only [Option.some.injEq, Prod.mk.injEq] at h
               intro hc
               apply hname
               rw [h.1, hc]
               rfl)


theorem lowerUnder_lowerWordChar {c : Char} (h : lowerUnder c = true) :
    lowerWordChar c = true := by
  rw [lowerUnder] at h
  rw [lowerWordChar]
  simp only [Bool.or_eq_true] at h ⊢
  rcases h with h | h
  · exact Or.inl (Or.inl h)
  · exact Or.inr h

theorem methodMatch_name_ne {l : Str} {nm params : Str} {ret : Option Str}
    (h : methodMatch l = some (nm, params, ret)) : nm ≠ [] := by
  rw [methodMatch] at h
  split at h
  case isFalse => exact Option.noConfusion h
  case isTrue =>
    dsimp only at h
    split at h
    case isTrue => exact Option.noConfusion h
    case isFalse =>
      split at h
      case isTrue => exact Option.noConfusion h
      case isFalse hhead =>
        have hlu : lowerUnder (((l.drop 7).dropWhile jsWs).headD ' ') = true := by
          cases hb : lowerUnder (((l.drop 7).dropWhile jsWs).headD ' ')
          · exact absurd (by rw [hb]; rfl) hhead
          · rfl
        have hnn : ((l.drop 7).dropWhile jsWs).takeWhile lowerWordChar ≠ [] := by
          cases hr1 : (l.drop 7).dropWhile jsWs with
          | nil => rw [hr1] at hlu; exact absurd hlu (by decide)
          | cons c r' =>
            rw [hr1] at hlu
            simp only [List.headD_cons] at hlu
            rw [List.takeWhile_cons, if_pos (lowerUnder_lowerWordChar hlu)]
            simp
        repeat' first
          | exact Option.noConfusion h
          | split at h
        all_goals simp only [Option.some.injEq, Prod.mk.injEq] at h
        all_goals rw [← h.1]
        all_goals exact hnn

theorem propMatch_name_ne {l : Str} {nm ty : Str}
    (h : propMatch l = some (nm, ty)) : nm ≠ [] := by
  rw [propMatch] at h
  split at h
  case isFalse => exact Option.noConfusion h
  case isTrue =>
    dsimp only at h
    split at h
    case isTrue => exact Option.noConfusion h
    case isFalse =>
      split at h
      case isTrue => exact Option.noConfusion h
      case isFalse hhead =>
        have hlu : lowerUnder (((l.drop 7).dropWhile jsWs).headD ' ') = true := by
          cases hb : lowerUnder (((l.drop 7).dropWhile jsWs).headD ' ')
          · exact absurd (by rw [hb]; rfl) hhead
          · rfl
        have hnn : ((l.drop 7).dropWhile jsWs).takeWhile lowerWordChar ≠ [] := by
          cases hr1 : (l.drop 7).dropWhile jsWs with
          | nil => rw [hr1] at hlu; exact absurd hlu (by decide)
          | cons c r' =>
            rw [hr1] at hlu
            simp only [List.headD_cons] at hlu
            rw [List.takeWhile_cons, if_pos (lowerUnder_lowerWordChar hlu)]
            simp
        repeat' first
          | exact Option.noConfusion h
          | split at h
        all_goals simp only [Option.some.injEq, Prod.mk.injEq] at h
        all_goals rw [← h.1]
        all_goals exact hnn

theorem consoleHeaderMatch_name_ne {l : Str} {nm : Str} {t : ConsoleType}
    (h : consoleHeaderMatch l = some (nm, t)) : nm ≠ [] := by
  rw [consoleHeaderMatch.eq_def] at h
  repeat' first
    | exact Option.noConfusion h
    | split at h
    | dsimp only at h
  all_goals simp only [Option.some.injEq, Prod.mk.injEq] at h
  all_goals rw [← h.1]
  all_goals simp_all [List.isEmpty_iff]

theorem processMethodLine_name {line : Str} {c : ClassInfo} {lines : List Str}
    {j : Nat} {cm st : Bool} {m : MethodInfo}
    (h : processMethodLine line c lines j cm st = some m) : m.name ≠ [] := by
  rw [processMethodLine] at h
  cases hmm : methodMatch line with
  | none => rw [hmm] at h; exact Option.noConfusion h
  | some x =>
    obtain ⟨nm, params, ret⟩ := x
    have hne := methodMatch_name_ne hmm
    rw [hmm] at h
    dsimp only at h
    split at h
    · exact Option.noConfusion h
    · injection h with h1
      rw [← h1]
      exact hne

theorem parseMethodsGo_names (lines : List Str) (c : ClassInfo) :
    ∀ fuel i cm st m, m ∈ parseMethodsGo lines c fuel i cm st →
      m.name ≠ [] ∧ m.className = c.name := by
  intro fuel
  induction fuel with
  | zero => intro i cm st m hm; exact absurd hm (by simp [parseMethodsGo])
  | succ f ih =>
    intro i cm st m hm
    rw [parseMethodsGo_succ_eq] at hm
    by_cases hcond : i < c.endLine ∧ i < lines.length
    · rw [dif_pos hcond] at hm
      split at hm
      · exact ih (i + 1) true st m hm
      · split at hm
        · exact ih (i + 1) cm true m hm
        · cases hP : processMethodLine (lines.get ⟨i, hcond.2⟩) c lines i cm st with
          | some m0 =>
            rw [hP] at hm
            dsimp only at hm
            rcases List.mem_cons.1 hm with he | ht
            · subst he
              exact ⟨processMethodLine_name hP, (processMethodLine_some hP).2.2.1⟩
            · exact ih (i + 1) false false m ht
          | none =>
            rw [hP] at hm
            dsimp only at hm
            exact ih (i + 1) false false m hm
    · rw [dif_neg hcond] at hm
      exact absurd hm (by simp)

theorem parsePropertiesGo_names (lines : List Str) (c : ClassInfo) :
    ∀ fuel i p, p ∈ parsePropertiesGo lines c fuel i →
      p.name ≠ [] ∧ p.className = c.name := by
  intro fuel
  induction fuel with
  | zero => intro i p hp; exact absurd hp (by simp [parsePropertiesGo])
  | succ f ih =>
    intro i p hp
    rw [parsePropertiesGo] at hp
    by_cases hcond : i < c.endLine ∧ i < lines.length
    · rw [dif_pos hcond] at hp
      dsimp only at hp
      by_cases hprop : (jsTrim (lines.get ⟨i, hcond.2⟩) != str "@property") = true
      · rw [if_pos hprop] at hp
        exact ih (i + 1) p hp
      · rw [if_neg hprop] at hp
        cases hget : lines.get? (i + 1) with
        | none =>
          rw [hget] at hp
          dsimp only at hp
          exact ih (i + 1) p hp
        | some propLine =>
          rw [hget] at hp
          dsimp only at hp
          cases hpm : propMatch propLine with
          | none =>
            rw [hpm] at hp
            dsimp only at hp
            exact ih (i + 1) p hp
          | some q =>
            obtain ⟨propName, tyRaw⟩ := q
            rw [hpm] at hp
            dsimp only at hp
            rcases List.mem_cons.1 hp with he | ht
            · subst he
              exact ⟨propMatch_name_ne hpm, rfl⟩
            · exact ih (i + 1) p ht
    · rw [dif_neg hcond] at hp
      exact absurd hp (by simp)

theorem saveEntry_names (entries : List ConsoleEntry) (cur : Option (Str × ConsoleType))
    (desc : List Str) (h1 : ∀ e ∈ entries, e.name ≠ [])
    (h2 : ∀ nm t, cur = some (nm, t) → nm ≠ []) :
    ∀ e ∈ saveEntry entries cur desc, e.name ≠ [] := by
  intro e he
  rw [saveEntry.eq_def] at he
  cases hcur : cur with
  | none => rw [hcur] at he; exact h1 e he
  | some q =>
    obtain ⟨nm0, t0⟩ := q
    rw [hcur] at he
    dsimp only at he
    rcases List.mem_append.1 he with hl | hr
    · exact h1 e hl
    · simp only [List.mem_singleton] at hr
      subst hr
      exact h2 nm0 t0 hcur

theorem consoleStep_names (st : ConsoleState) (l : Str)
    (h1 : ∀ e ∈ st.entries, e.name ≠ [])
    (h2 : ∀ nm t, st.current = some (nm, t) → nm ≠ []) :
    (∀ e ∈ (consoleStep st l).entries, e.name ≠ []) ∧
    (∀ nm t, (consoleStep st l).current = some (nm, t) → nm ≠ []) := by
  rw [consoleStep]
  cases hh : consoleHeaderMatch l with
  | some p =>
    obtain ⟨nm, t⟩ := p
    dsimp only
    refine ⟨saveEntry_names st.entries st.current st.descLines h1 h2, ?_⟩
    intro nm' t' he
    simp only [Option.some.injEq, Prod.mk.injEq] at he
    rw [← he.1]
    exact consoleHeaderMatch_name_ne hh
  | none =>
    dsimp only
    split
    · exact ⟨h1, h2⟩
    · exact ⟨h1, h2⟩

theorem csFold_names (lines : List Str) :
    ∀ st : ConsoleState,
      (∀ e ∈ st.entries, e.name ≠ []) →
      (∀ nm t, st.current = some (nm, t) → nm ≠ []) →
      (∀ e ∈ (lines.foldl consoleStep st).entries, e.name ≠ []) ∧
      (∀ nm t, (lines.foldl consoleStep st).current = some (nm, t) → nm ≠ []) := by
  induction lines with
  | nil => intro st h1 h2; exact ⟨h1, h2⟩
  | cons l ls ih =>
    intro st h1 h2
    rw [List.foldl_cons]
    obtain ⟨g1, g2⟩ := consoleStep_names st l h1 h2
    exact ih (consoleStep st l) g1 g2

theorem parseConsoleMarkdown_names (content : Str) :
    ∀ e ∈ parseConsoleMarkdown content, e.name ≠ [] := by
  rw [parseConsoleMarkdown]
  obtain ⟨g1, g2⟩ := csFold_names (splitNL content) ⟨[], none, []⟩
    (by intro e he; exact absurd he (by simp)) (by intro nm t h; exact absurd h (by simp))
  exact saveEntry_names _ _ _ g1 g2

theorem joinNL_cons_ne_nil {x : Str} {rest : List Str} (hx : x ≠ []) :
    joinNL (x :: rest) ≠ [] := by
  cases rest with
  | nil => simpa [joinNL] using hx
  | cons y ys => simp [joinNL]

theorem createClassChunk_fields (lines : List Str) (c : ClassInfo) (hname : c.name ≠ []) :
    (createClassChunk c lines).id ≠ [] ∧ (createClassChunk c lines).name ≠ [] ∧
    (createClassChunk c lines).content ≠ [] := by
  refine ⟨?_, hname, ?_⟩
  · simp only [createClassChunk]
    exact ne_nil_append _ _ (ne_nil_append _ _ (ne_nil_append _ _ (by decide)))
  · simp only [createClassChunk]
    simp only [List.append_assoc, List.singleton_append]
    exact joinNL_cons_ne_nil (ne_nil_append _ _ (by decide))

theorem createMethodChunk_fields (m : MethodInfo) (hname : m.name ≠ []) :
    (createMethodChunk m).id ≠ [] ∧ (createMethodChunk m).name ≠ [] ∧
    (createMethodChunk m).content ≠ [] := by
  refine ⟨?_, hname, ?_⟩
  · simp only [createMethodChunk]
    exact ne_nil_append _ _ (ne_nil_append _ _ (by decide))
  · simp only [createMethodChunk]
    simp only [List.append_assoc, List.cons_append, List.nil_append]
    exact joinNL_cons_ne_nil (ne_nil_append _ _ (by decide))

theorem createPropertyChunk_fields (p : PropertyInfo) (hname : p.name ≠ []) :
    (createPropertyChunk p).id ≠ [] ∧ (createPropertyChunk p).name ≠ [] ∧
    (createPropertyChunk p).content ≠ [] := by
  refine ⟨?_, hname, ?_⟩
  · simp only [createPropertyChunk]
    exact ne_nil_append _ _ (ne_nil_append _ _ (by decide))
  · simp only [createPropertyChunk]
    simp only [List.append_assoc, List.cons_append, List.nil_append]
    exact joinNL_cons_ne_nil (ne_nil_append _ _ (by decide))

theorem perClassChunks_fields (lines : List Str) (version : Option Str) (c : ClassInfo)
    (hcname : c.name ≠ []) :
    ∀ ch ∈ perClassChunks lines version c,
      ch.id ≠ [] ∧ ch.name ≠ [] ∧ ch.content ≠ [] := by
  intro ch hch
  rw [perClassChunks] at hch
  by_cases he : c.isEnum = true
  · rw [if_pos he] at hch
    simp only [List.mem_singleton] at hch
    subst hch
    exact createClassChunk_fields lines c hcname
  · rw [if_neg he] at hch
    rcases List.mem_cons.1 hch with hc1 | hrest
    · subst hc1
      exact createClassChunk_fields lines c hcname
    · rcases List.mem_append.1 hrest with hms | hps
      · obtain ⟨m, hmm, hform⟩ := List.mem_map.1 hms
        obtain ⟨hn, _⟩ := parseMethodsGo_names lines c c.endLine c.lineNumber false false m hmm
        rw [← hform]
        exact createMethodChunk_fields m hn
      · obtain ⟨p, hpp, hform⟩ := List.mem_map.1 hps
        obtain ⟨hn, _⟩ := parsePropertiesGo_names lines c c.endLine c.lineNumber p hpp
        rw [← hform]
        exact createPropertyChunk_fields p hn

/-- Claim C9 (amended): every chunk emitted by the three recognizers has a
non-empty id and non-empty content, and the stub-file and command-list chunks
also have non-empty names; `type` and `source` are drawn from their closed
enumerations by construction.  The markdown recognizer, however, names a chunk
with the trimmed heading text, which is empty for a heading whose text is pure
whitespace, so markdown chunk names can be empty. -/
theorem claim_c9 (pyLines : List Str) (pyVersion : Option Str) (csContent : Str)
    (csVersion : Option Str) (mdContent : Str) (mdSource : DocSource)
    (mdVersion : Option Str) :
    (∀ ch ∈ parseUnrealPythonChunks pyLines pyVersion,
      ch.id ≠ [] ∧ ch.name ≠ [] ∧ ch.content ≠ []) ∧
    (∀ ch ∈ (parseUnrealConsole csContent csVersion).chunks,
      ch.id ≠ [] ∧ ch.name ≠ [] ∧ ch.content ≠ []) ∧
    (∀ ch ∈ (parseMarkdownDocs mdContent mdSource mdVersion).chunks,
      ch.id ≠ [] ∧ ch.content ≠ []) := by
  refine ⟨?_, ?_, ?_⟩
  · intro ch hch
    rw [parseUnrealPythonChunks] at hch
    obtain ⟨c, hcf, hchc⟩ := List.mem_flatMap.1 hch
    have hc := (List.mem_filter.1 hcf).1
    obtain ⟨j, hj, nm, grp, _, hcm, hb⟩ := parseClassesGo_sound pyLines _ 0 c hc
    have hcname : c.name ≠ [] := by
      rw [hb]
      exact classMatch_name_ne hcm
    have hfields := perClassChunks_fields pyLines pyVersion c hcname ch hchc
    exact hfields
  · intro ch hch
    rw [parseUnrealConsole] at hch
    obtain ⟨e, hee, hform⟩ := List.mem_map.1 hch
    have hename := parseConsoleMarkdown_names csContent e hee
    rw [← hform]
    refine ⟨?_, hename, ?_⟩
    · simp only [mkConsoleChunk]
      exact ne_nil_append _ _ (ne_nil_append _ _ (ne_nil_append _ _ (by decide)))
    · simp only [mkConsoleChunk]
      exact joinNL_cons_ne_nil (ne_nil_append _ _ (by decide))
  · intro ch hch
    rw [parseMarkdownDocs] at hch
    obtain ⟨p, hpp, hform⟩ := List.mem_map.1 hch
    rw [← hform]
    constructor
    · simp only [mkMarkdownChunk]
      refine ne_nil_append _ _ (ne_nil_append _ _ (ne_nil_append _ _ (ne_nil_append _ _
        (ne_nil_append _ _ ?_))))
      cases mdSource <;> decide
    · simp only [mkMarkdownChunk]
      exact joinNL_cons_ne_nil (ne_nil_append _ _ (by decide))

/-- Counterexample for claim C9 as stated: a markdown heading consisting of
hashes and whitespace only yields a chunk whose `name` is the empty string. -/
theorem claim_c9_counterexample :
    ((parseMarkdownDocs (str "##  \n" ++ List.replicate 60 'a') DocSource.pyqtReference
        none).chunks).map DocChunk.name = [[]] := by
  decide

end GentleMcp
